import Mathlib

/-!
Verification development for the qbels symbol-resolution core.

The source program is a language server over tree-sitter syntax trees for the
QBE intermediate representation.  We shallowly embed the data model and the
four operations (prepare-rename, rename, find-references, goto-definition)
over an explicit syntax-tree type.  Coordinates are byte offsets; the
document text is a list of characters indexed by byte offset, which is the
same coordinate space the source code uses for `set_byte_range` and node
ranges (the row/column positions of the LSP layer are a bijective recoding
of byte offsets for a fixed document, so byte spans are the canonical form).

Trees are inputs supplied by the external parser; the embedding quantifies
over them.  Well-formedness of a tree (`wfN`) captures the structural
guarantees of tree-sitter trees and of the QBE grammar that the source
relies on: child ranges nested in the parent range, sibling ranges ordered
and disjoint, positive-width tokens, and the parser contract stated by the
spec that every wrapping node (LOCAL, GLOBAL, LABEL, AGGREGATE) has exactly
one named child, the bare IDENT carrying the field `name`.
-/

/-- A half-open byte range `[start, stop)` of a node, as in tree-sitter. -/
structure Span where
  start : Nat
  stop : Nat
deriving DecidableEq, Repr

/-- Document text as a sequence of bytes (modelled as characters). -/
abbrev Doc := List Char

/-- A syntax-tree node: kind tag, named flag, optional field name of the edge
from its parent, byte span, ordered children (named and unnamed). -/
inductive TSNode where
  | node (kind : String) (isNamed : Bool) (fld : Option String) (span : Span)
      (children : List TSNode)

def TSNode.kind : TSNode → String
  | .node k _ _ _ _ => k

def TSNode.isNamed : TSNode → Bool
  | .node _ nm _ _ _ => nm

def TSNode.fld : TSNode → Option String
  | .node _ _ f _ _ => f

def TSNode.span : TSNode → Span
  | .node _ _ _ sp _ => sp

def TSNode.children : TSNode → List TSNode
  | .node _ _ _ _ cs => cs

/-- The slice of the document covered by a byte span (`utf8_text`). -/
def sliceD (src : Doc) (sp : Span) : Doc :=
  (src.drop sp.start).take (sp.stop - sp.start)

/-- Node text, as `Node::utf8_text` computes it from the byte range. -/
def nodeText (src : Doc) (n : TSNode) : Doc :=
  sliceD src n.span

/-- Does a span cover the one-byte range `[b, b+1)`?  This is the covering
test of `named_descendant_for_point_range(p, p+1)`. -/
def coversB (sp : Span) (b : Nat) : Bool :=
  decide (sp.start ≤ b) && decide (b + 1 ≤ sp.stop)

/-- Do two half-open spans intersect?  `QueryCursor::set_byte_range`
restricts the query walk to nodes intersecting the given range. -/
def interB (r : Span) (sp : Span) : Bool :=
  decide (r.start < sp.stop) && decide (sp.start < r.stop)

/-- Intersection against an optional restriction (none = unrestricted). -/
def interO : Option Span → Span → Bool
  | none, _ => true
  | some r, sp => interB r sp

/-- `a` lies inside `b` (byte-range containment). -/
def spanIn (a b : Span) : Bool :=
  decide (b.start ≤ a.start) && decide (a.stop ≤ b.stop)

/-- A path from the root to a node: the list of child indices taken. -/
abbrev TPath := List Nat

/-- Follow a path of child indices from a node. -/
def getPath : TSNode → TPath → Option TSNode
  | t, [] => some t
  | t, i :: p =>
    match t.children[i]? with
    | some c => getPath c p
    | none => none

/-- The four symbol kinds of the source (`IdentKind`), with the source's
spelling of `Aggregete` kept. -/
inductive IdentKind where
  | Local
  | Global
  | Aggregete
  | Label
deriving DecidableEq, Repr

/-- `IdentKind::kind`: the wrapping node kind tag for each symbol kind. -/
def IdentKind.kind : IdentKind → String
  | .Local => "LOCAL"
  | .Global => "GLOBAL"
  | .Aggregete => "AGGREGATE"
  | .Label => "LABEL"

/-- `Backend::is_renamable`: classify a node kind tag as a symbol kind. -/
def is_renamable (n : TSNode) : Option IdentKind :=
  match n.kind with
  | "LOCAL" => some .Local
  | "GLOBAL" => some .Global
  | "AGGREGATE" => some .Aggregete
  | "LABEL" => some .Label
  | _ => none

/-- Index of the first named child (`Node::named_child(0)`). -/
def namedChild0Idx (n : TSNode) : Option Nat :=
  n.children.findIdx? (fun c => c.isNamed)

/-- The first named child itself. -/
def namedChild0 (n : TSNode) : Option TSNode :=
  n.children.find? (fun c => c.isNamed)

/-- The child carrying field `name` and matching the query fragment
`name: (IDENT)`: a named child of kind IDENT on the `name` field. -/
def nameFieldIdent (n : TSNode) : Option TSNode :=
  n.children.find? (fun c =>
    c.fld == some "name" && c.kind == "IDENT" && c.isNamed)

mutual

/-- Smallest named descendant covering byte `b`
(`Node::named_descendant_for_point_range` with a one-byte range), returned
as the path from the given node.  Descends into a child covering the byte;
if no named node below covers it, the current node answers if it is named. -/
def namedDescPath : TSNode → Nat → Option TPath
  | .node _ nm _ _ cs, b =>
    match namedDescInList cs 0 b with
    | some p => some p
    | none => if nm then some [] else none

def namedDescInList : List TSNode → Nat → Nat → Option TPath
  | [], _, _ => none
  | c :: cs, i, b =>
    if coversB c.span b then
      match namedDescPath c b with
      | some p => some (i :: p)
      | none => namedDescInList cs (i + 1) b
    else
      namedDescInList cs (i + 1) b

end

/-- `Backend::find_ident_node`, over the path of the cursor node: if the
node is a wrapping node, answer its first named child with the wrapper's
kind; else if it is a bare IDENT whose parent is a wrapping node, answer
the node itself with the parent's kind; else not classifiable. -/
def find_ident_node (t : TSNode) (p : TPath) : Option (TPath × IdentKind) :=
  match getPath t p with
  | none => none
  | some n =>
    match is_renamable n with
    | some k =>
      match namedChild0Idx n with
      | some i => some (p ++ [i], k)
      | none => none
    | none =>
      if n.kind == "IDENT" then
        match p with
        | [] => none
        | _ =>
          match getPath t p.dropLast with
          | some par =>
            match is_renamable par with
            | some k => some (p, k)
            | none => none
          | none => none
      else none

/-- Classify the occurrence at byte `b`: find the smallest covering named
node, then run `find_ident_node` on it. -/
def classifyAt (t : TSNode) (b : Nat) : Option (TPath × IdentKind) :=
  match namedDescPath t b with
  | none => none
  | some cp => find_ident_node t cp

/-- The ancestor walk of `find_funcdef_from_child_node`, by fuel (the
fuel is the path length, which bounds the number of parent steps). -/
def ffnAux (t : TSNode) : Nat → TPath → Option TPath
  | 0, p =>
    match getPath t p with
    | some n => if n.kind == "FUNCDEF" then some p else none
    | none => none
  | fuel + 1, p =>
    match getPath t p with
    | some n =>
      if n.kind == "FUNCDEF" then some p
      else if p = [] then none
      else ffnAux t fuel p.dropLast
    | none =>
      if p = [] then none
      else ffnAux t fuel p.dropLast

/-- `Backend::find_funcdef_from_child_node`: from a node upwards (checking
the node itself first), the first ancestor of kind FUNCDEF, as a path. -/
def find_funcdef_from_child_node (t : TSNode) (p : TPath) : Option TPath :=
  ffnAux t p.length p

/-- Scope boundary of a classified occurrence: the enclosing FUNCDEF node
for Local/Label (none when there is no enclosing function), the document
root for Global/Aggregate. -/
def resolveBoundary (t : TSNode) (p : TPath) (k : IdentKind) : Option TSNode :=
  match k with
  | .Local | .Label =>
    match find_funcdef_from_child_node t p with
    | some fp => getPath t fp
    | none => none
  | .Global | .Aggregete => some t

/-- Keep the first occurrence of each element (itertools `unique`). -/
def uniqueFirst {α : Type} [DecidableEq α] : List α → List α
  | [] => []
  | x :: xs => x :: (uniqueFirst xs).filter (fun y => y ≠ x)

mutual

/-- Run a per-node capture function over every node of a subtree
(the query engine visits every node under the node it is given). -/
def collectN (f : TSNode → List TSNode) : TSNode → List TSNode
  | .node k nm fl sp cs => f (.node k nm fl sp cs) ++ collectL f cs

def collectL (f : TSNode → List TSNode) : List TSNode → List TSNode
  | [] => []
  | c :: cs => collectN f c ++ collectL f cs

end

/-- Captures of a query over a tree, in ascending byte order:
`QueryCursor::captures` yields captures ordered by position in the
document; we model this as a stable sort of the tree-walk captures by
start byte. -/
def queryCaptures (f : TSNode → List TSNode) (t : TSNode) : List TSNode :=
  List.insertionSort (fun a b => a.span.start ≤ b.span.start) (collectN f t)

/-- The reference query of `Backend::references`:
`({KIND} name: (IDENT) @name (#eq? @name "nm")) @global`.  A match is a
named node of the wrapping kind whose `name`-field IDENT child has exactly
the requested text; with a byte-range restriction both captured nodes must
intersect the range.  The wrapper capture is collected once per capture of
the match (the source pushes the kind-matching capture on every yield of
the capture iterator, and deduplicates later). -/
def refMatchAt (src : Doc) (k : IdentKind) (nm : Doc) (w : Option Span)
    (n : TSNode) : List TSNode :=
  if n.isNamed && n.kind == k.kind then
    match nameFieldIdent n with
    | some id =>
      if nodeText src id == nm && interO w n.span && interO w id.span then
        [n, n]
      else []
    | none => []
  else []

/-- The shared capture step of every definition pattern: a candidate
wrapping node is emitted (once per capture of the match, so twice) when
its `name`-field IDENT has exactly the requested text and, under a byte
range restriction, both captured nodes intersect the range. -/
def emitIf (src : Doc) (nm : Doc) (w : Option Span) (a : TSNode) :
    List TSNode :=
  match nameFieldIdent a with
  | some idc =>
    if nodeText src idc == nm && interO w a.span && interO w idc.span then
      [a, a]
    else []
  | none => []

/-- Definition pattern `(INST assignment: (LOCAL name: (IDENT) @name ...)
@local)`: a LOCAL in assignment position of an instruction. -/
def instAssignMatch (src : Doc) (nm : Doc) (w : Option Span)
    (n : TSNode) : List TSNode :=
  if n.isNamed && n.kind == "INST" then
    match n.children.find? (fun c =>
        c.fld == some "assignment" && c.kind == "LOCAL" && c.isNamed) with
    | some lo => emitIf src nm w lo
    | none => []
  else []

/-- Definition pattern `(FUNCDEF params: (FUNCDEF_PARAMS (FUNCDEF_PARAM
name: (LOCAL name: (IDENT) @name ...) @local)))`: a parameter name. -/
def funcdefParamMatch (src : Doc) (nm : Doc) (w : Option Span)
    (n : TSNode) : List TSNode :=
  if n.isNamed && n.kind == "FUNCDEF" then
    match n.children.find? (fun c =>
        c.fld == some "params" && c.kind == "FUNCDEF_PARAMS" && c.isNamed) with
    | some ps =>
      (ps.children.filter
          (fun q => q.isNamed && q.kind == "FUNCDEF_PARAM")).flatMap
        (fun q =>
          match q.children.find? (fun c =>
              c.fld == some "name" && c.kind == "LOCAL" && c.isNamed) with
          | some lo => emitIf src nm w lo
          | none => [])
    | none => []
  else []

/-- Definition pattern `(BLOCK label: (LABEL name: (IDENT) @name ...)
@label)`: a block's label declaration. -/
def blockLabelMatch (src : Doc) (nm : Doc) (w : Option Span)
    (n : TSNode) : List TSNode :=
  if n.isNamed && n.kind == "BLOCK" then
    match n.children.find? (fun c =>
        c.fld == some "label" && c.kind == "LABEL" && c.isNamed) with
    | some lb => emitIf src nm w lb
    | none => []
  else []

/-- Definition patterns `(FUNCDEF name: (GLOBAL ...) @global)` and
`(DATADEF name: (GLOBAL ...) @global)`: function and data names. -/
def globalDefMatch (src : Doc) (nm : Doc) (w : Option Span)
    (n : TSNode) : List TSNode :=
  if n.isNamed && (n.kind == "FUNCDEF" || n.kind == "DATADEF") then
    match n.children.find? (fun c =>
        c.fld == some "name" && c.kind == "GLOBAL" && c.isNamed) with
    | some g => emitIf src nm w g
    | none => []
  else []

/-- Definition pattern `(TYPEDEF (AGGREGATE name: (IDENT) @name ...)
@aggregate)`: a name in a type definition. -/
def typedefAggMatch (src : Doc) (nm : Doc) (w : Option Span)
    (n : TSNode) : List TSNode :=
  if n.isNamed && n.kind == "TYPEDEF" then
    (n.children.filter (fun c => c.isNamed && c.kind == "AGGREGATE")).flatMap
      (emitIf src nm w)
  else []

/-- The per-kind definition pattern set of `Backend::goto_definition`. -/
def defMatchAt (src : Doc) (k : IdentKind) (nm : Doc) (w : Option Span)
    (n : TSNode) : List TSNode :=
  match k with
  | .Local => instAssignMatch src nm w n ++ funcdefParamMatch src nm w n
  | .Label => blockLabelMatch src nm w n
  | .Global => globalDefMatch src nm w n
  | .Aggregete => typedefAggMatch src nm w n

/-- Result of a goto-definition request: one location or several. -/
inductive GotoResp where
  | Scalar (s : Span)
  | Array (ss : List Span)
deriving DecidableEq, Repr

/-- The protocol errors the source constructs. -/
inductive RpcError where
  | internalError
  | invalidParams (msg : String)
deriving DecidableEq, Repr

/-- Outcome of one request handler: a Rust panic (an `unwrap` failing), a
JSON-RPC error, or an ordinary reply. -/
inductive OpOut (α : Type) where
  | panic
  | err (e : RpcError)
  | ok (a : α)
deriving DecidableEq, Repr

/-- Deduplicated spans of a capture list, in capture order. -/
def captureSpans (ns : List TSNode) : List Span :=
  uniqueFirst (ns.map TSNode.span)

/-- `Backend::references` reply shape: `None` when no location was found,
otherwise the full deduplicated list. -/
def refResult (ns : List TSNode) : Option (List Span) :=
  match captureSpans ns with
  | [] => none
  | ss => some ss

/-- `Backend::goto_definition` reply shape: zero matches give `None`, one
gives a scalar location, several give the whole array. -/
def gotoResult (ns : List TSNode) : Option GotoResp :=
  match captureSpans ns with
  | [] => none
  | [s] => some (.Scalar s)
  | ss => some (.Array ss)

/-- `Backend::prepare_rename`: the identifier range and placeholder text of
a classifiable occurrence, `None` otherwise. -/
def prepare_rename (src : Doc) (t : TSNode) (b : Nat) :
    OpOut (Option (Span × Doc)) :=
  match namedDescPath t b with
  | none => .panic
  | some cp =>
    match find_ident_node t cp with
    | none => .ok none
    | some (ip, _) =>
      match getPath t ip with
      | none => .panic
      | some idN => .ok (some (idN.span, nodeText src idN))

/-- `Backend::references`: classify, resolve the Local/Label boundary (an
unresolvable boundary degrades to `Ok(None)`), evaluate the reference
query — byte-restricted to the whole function-definition range for
Local/Label — and return the deduplicated locations. -/
def references (src : Doc) (t : TSNode) (b : Nat) :
    OpOut (Option (List Span)) :=
  match namedDescPath t b with
  | none => .panic
  | some cp =>
    match find_ident_node t cp with
    | none => .ok none
    | some (ip, k) =>
      match getPath t ip with
      | none => .panic
      | some idN =>
        let nm := nodeText src idN
        match k with
        | .Local | .Label =>
          match find_funcdef_from_child_node t ip with
          | none => .ok none
          | some fp =>
            match getPath t fp with
            | none => .panic
            | some fd =>
              .ok (refResult
                (queryCaptures (refMatchAt src k nm (some fd.span)) t))
        | .Global | .Aggregete =>
          .ok (refResult (queryCaptures (refMatchAt src k nm none) t))

/-- `Backend::goto_definition`: classify, resolve the Local/Label boundary
(an unresolvable boundary degrades to `Ok(None)`), evaluate the per-kind
definition patterns — byte-restricted, for Local/Label, to the range from
the function-definition start to the end byte of the cursor identifier —
and shape the reply by match count. -/
def goto_definition (src : Doc) (t : TSNode) (b : Nat) :
    OpOut (Option GotoResp) :=
  match namedDescPath t b with
  | none => .panic
  | some cp =>
    match find_ident_node t cp with
    | none => .ok none
    | some (ip, k) =>
      match getPath t ip with
      | none => .panic
      | some idN =>
        let nm := nodeText src idN
        match k with
        | .Local | .Label =>
          match find_funcdef_from_child_node t ip with
          | none => .ok none
          | some fp =>
            match getPath t fp with
            | none => .panic
            | some fd =>
              .ok (gotoResult (queryCaptures
                (defMatchAt src k nm
                  (some ⟨fd.span.start, idN.span.stop⟩)) t))
        | .Global | .Aggregete =>
          .ok (gotoResult (queryCaptures (defMatchAt src k nm none) t))

mutual

/-- `Backend::rename_ident_from_node` on one node: visit its children; a
child matching the wrapping kind contributes its first named child when
that identifier's text equals the old name and is not recursed into;
other children are recursed into.  `none` models the source's `unwrap`
panic on a wrapping node without a named child. -/
def renameWalkN (src : Doc) (old : Doc) (kd : String) :
    TSNode → Option (List TSNode)
  | .node _ _ _ _ cs => renameWalkL src old kd cs

def renameWalkL (src : Doc) (old : Doc) (kd : String) :
    List TSNode → Option (List TSNode)
  | [] => some []
  | c :: cs =>
    match
      (if c.kind == kd then
        match namedChild0 c with
        | none => none
        | some idN =>
          some (if nodeText src idN == old then [idN] else [])
      else renameWalkN src old kd c) with
    | none => none
    | some here =>
      match renameWalkL src old kd cs with
      | none => none
      | some rest => some (here ++ rest)

end

/-- `Backend::rename`: classify (an unclassifiable cursor is answered with
an internal error), resolve the boundary (Local/Label outside a function
definition is refused with invalid params), walk the boundary subtree and
emit one edit per recorded identifier, all with the new name. -/
def rename (src : Doc) (t : TSNode) (b : Nat) (newName : Doc) :
    OpOut (List (Span × Doc)) :=
  match namedDescPath t b with
  | none => .panic
  | some cp =>
    match find_ident_node t cp with
    | none => .err .internalError
    | some (ip, k) =>
      match getPath t ip with
      | none => .panic
      | some idN =>
        match k with
        | .Local | .Label =>
          match find_funcdef_from_child_node t ip with
          | none =>
            .err (.invalidParams "Cant rename local or label outside funcdef")
          | some fp =>
            match getPath t fp with
            | none => .panic
            | some fd =>
              match renameWalkN src (nodeText src idN) k.kind fd with
              | none => .panic
              | some ids =>
                .ok (ids.map (fun idn => (idn.span, newName)))
        | .Global | .Aggregete =>
          match renameWalkN src (nodeText src idN) k.kind t with
          | none => .panic
          | some ids =>
            .ok (ids.map (fun idn => (idn.span, newName)))

/-- Shift a span left by `c` (used to re-base spans after consuming a
prefix of the document). -/
def spanDown (c : Nat) (sp : Span) : Span :=
  ⟨sp.start - c, sp.stop - c⟩

/-- Modelled from the spec: applying an edit plan to the document is done
by the editor client, outside this repository.  Edits carry ranges of the
original document; for a plan sorted in ascending range order with
pairwise disjoint ranges, the result splices every replacement in
simultaneously.  Processed left to right; `off` is the original-document
position of the first byte of `src` (the not yet consumed suffix). -/
def applyAscOff (off : Nat) (src : Doc) : List (Span × Doc) → Doc
  | [] => src
  | (sp, r) :: rest =>
    src.take (sp.start - off) ++ r ++
      applyAscOff sp.stop (src.drop (sp.stop - off)) rest

/-- Apply a whole edit plan (ranges over the original document). -/
def applyAsc (src : Doc) (es : List (Span × Doc)) : Doc :=
  applyAscOff 0 src es

/-- Modelled from the spec: the byte-offset translation induced by an
ascending, disjoint edit plan whose replacements all have length `m`.  A
clean position (one not strictly inside any edited range) moves right by
the accumulated length differences of the edits before it.  `off` is the
original position already accounted for and `acc` its image. -/
def shiftFOff (m off acc : Nat) : List Span → Nat → Nat
  | [], p => acc + (p - off)
  | sp :: rest, p =>
    if sp.stop ≤ p then
      shiftFOff m sp.stop (acc + (sp.start - off) + m) rest p
    else acc + (p - off)

/-- The byte-offset translation of a whole plan. -/
def shiftF (m : Nat) (es : List Span) (p : Nat) : Nat :=
  shiftFOff m 0 0 es p

mutual

/-- Map a byte-offset translation over every span of a tree.  Modelled
from the spec: re-parsing the document after a structure-preserving edit
(the parser is an external collaborator) yields the same tree with every
byte range carried through the edit's offset translation. -/
def mapSpanF (F : Nat → Nat) : TSNode → TSNode
  | .node k nm fl sp cs => .node k nm fl ⟨F sp.start, F sp.stop⟩ (mapSpanL F cs)

def mapSpanL (F : Nat → Nat) : List TSNode → List TSNode
  | [] => []
  | c :: cs => mapSpanF F c :: mapSpanL F cs

end

/-- Is this kind tag one of the four wrapping kinds? -/
def isWrapKind (k : String) : Bool :=
  k == "LOCAL" || k == "GLOBAL" || k == "AGGREGATE" || k == "LABEL"

/-- Pairwise sibling ordering: every child ends no later than every later
child starts. -/
def sibOrdered : List TSNode → Bool
  | [] => true
  | c :: cs =>
    cs.all (fun d => decide (c.span.stop ≤ d.span.start)) && sibOrdered cs

mutual

/-- Well-formedness of a syntax tree: positive-width spans, children
nested in the parent span and pairwise ordered-disjoint, unnamed nodes and
IDENT nodes are leaves, wrapping nodes are named and have exactly one
named child — a named IDENT on the `name` field — as the spec's parser
contract states. -/
def wfN : TSNode → Bool
  | .node k nm _ sp cs =>
    decide (sp.start < sp.stop) &&
    cs.all (fun c => spanIn c.span sp) &&
    sibOrdered cs &&
    (!nm → cs.isEmpty) &&
    (k == "IDENT" → cs.isEmpty) &&
    (isWrapKind k →
      (nm &&
        match cs.filter (fun c => c.isNamed) with
        | [c] => c.kind == "IDENT" && c.fld == some "name"
        | _ => false)) &&
    wfL cs

def wfL : List TSNode → Bool
  | [] => true
  | c :: cs => wfN c && wfL cs

end

/-- Terse node constructor for concrete example trees. -/
def N (k : String) (nm : Bool) (fl : Option String) (s e : Nat)
    (cs : List TSNode) : TSNode :=
  .node k nm fl ⟨s, e⟩ cs

/-- Terse unnamed leaf token. -/
def tok (k : String) (s e : Nat) : TSNode :=
  N k false none s e []

/-- Example document A: one function whose local is used before it is
defined. -/
def docA : Doc := "function $f() {@s ret %x %x =w copy 1}".toList

/-- The syntax tree of `docA`. -/
def treeA : TSNode :=
  N "SOURCE_FILE" true none 0 38 [
    N "FUNCDEF" true none 0 38 [
      tok "function" 0 8,
            N "GLOBAL" true (some "name") 9 11 [
        tok "$" 9 10, N "IDENT" true (some "name") 10 11 []],
      N "FUNCDEF_PARAMS" true (some "params") 11 13 [],
      tok "\x7b" 14 15,
      N "BLOCK" true none 15 37 [
        N "LABEL" true (some "label") 15 17 [
        tok "@" 15 16, N "IDENT" true (some "name") 16 17 []],
        N "INST" true none 18 24 [
          tok "ret" 18 21,
          N "LOCAL" true none 22 24 [
        tok "%" 22 23, N "IDENT" true (some "name") 23 24 []]],
        N "INST" true none 25 37 [
          N "LOCAL" true (some "assignment") 25 27 [
        tok "%" 25 26, N "IDENT" true (some "name") 26 27 []],
          tok "=w" 28 30, tok "copy" 31 35,
          N "NUMBER" true none 36 37 []]],
      tok "\x7d" 37 38]]

/-- Example document B: two functions, each with a local named the same
way. -/
def docB : Doc := "function $f() {@a %x =w copy 1 ret %x} function $g() {@a %x =w copy 2 ret %x}".toList

/-- The syntax tree of `docB`. -/
def treeB : TSNode :=
  N "SOURCE_FILE" true none 0 77 [
    N "FUNCDEF" true none 0 38 [
      tok "function" 0 8,
            N "GLOBAL" true (some "name") 9 11 [
        tok "$" 9 10, N "IDENT" true (some "name") 10 11 []],
      N "FUNCDEF_PARAMS" true (some "params") 11 13 [],
      tok "\x7b" 14 15,
      N "BLOCK" true none 15 37 [
        N "LABEL" true (some "label") 15 17 [
        tok "@" 15 16, N "IDENT" true (some "name") 16 17 []],
        N "INST" true none 18 30 [
          N "LOCAL" true (some "assignment") 18 20 [
        tok "%" 18 19, N "IDENT" true (some "name") 19 20 []],
          tok "=w" 21 23, tok "copy" 24 28,
          N "NUMBER" true none 29 30 []],
        N "INST" true none 31 37 [
          tok "ret" 31 34,
          N "LOCAL" true none 35 37 [
        tok "%" 35 36, N "IDENT" true (some "name") 36 37 []]]],
      tok "\x7d" 37 38],
    N "FUNCDEF" true none 39 77 [
      tok "function" 39 47,
            N "GLOBAL" true (some "name") 48 50 [
        tok "$" 48 49, N "IDENT" true (some "name") 49 50 []],
      N "FUNCDEF_PARAMS" true (some "params") 50 52 [],
      tok "\x7b" 53 54,
      N "BLOCK" true none 54 76 [
        N "LABEL" true (some "label") 54 56 [
        tok "@" 54 55, N "IDENT" true (some "name") 55 56 []],
        N "INST" true none 57 69 [
          N "LOCAL" true (some "assignment") 57 59 [
        tok "%" 57 58, N "IDENT" true (some "name") 58 59 []],
          tok "=w" 60 62, tok "copy" 63 67,
          N "NUMBER" true none 68 69 []],
        N "INST" true none 70 76 [
          tok "ret" 70 73,
          N "LOCAL" true none 74 76 [
        tok "%" 74 75, N "IDENT" true (some "name") 75 76 []]]],
      tok "\x7d" 76 77]]

/-- Example document C: a global defined by the first function and
referenced by a call inside the second one. -/
def docC : Doc := "function $f() {@a ret} function $g() {@a call $f()}".toList

/-- The syntax tree of `docC`. -/
def treeC : TSNode :=
  N "SOURCE_FILE" true none 0 51 [
    N "FUNCDEF" true none 0 22 [
      tok "function" 0 8,
            N "GLOBAL" true (some "name") 9 11 [
        tok "$" 9 10, N "IDENT" true (some "name") 10 11 []],
      N "FUNCDEF_PARAMS" true (some "params") 11 13 [],
      tok "\x7b" 14 15,
      N "BLOCK" true none 15 21 [
        N "LABEL" true (some "label") 15 17 [
        tok "@" 15 16, N "IDENT" true (some "name") 16 17 []],
        N "INST" true none 18 21 [tok "ret" 18 21]],
      tok "\x7d" 21 22],
    N "FUNCDEF" true none 23 51 [
      tok "function" 23 31,
            N "GLOBAL" true (some "name") 32 34 [
        tok "$" 32 33, N "IDENT" true (some "name") 33 34 []],
      N "FUNCDEF_PARAMS" true (some "params") 34 36 [],
      tok "\x7b" 37 38,
      N "BLOCK" true none 38 50 [
        N "LABEL" true (some "label") 38 40 [
        tok "@" 38 39, N "IDENT" true (some "name") 39 40 []],
        N "INST" true none 41 50 [
          tok "call" 41 45,
          N "GLOBAL" true none 46 48 [
        tok "$" 46 47, N "IDENT" true (some "name") 47 48 []],
          tok "()" 48 50]],
      tok "\x7d" 50 51]]

/-- Example document D: a bare local outside any function (malformed
input). -/
def docD : Doc := "%x".toList

/-- The syntax tree of `docD`. -/
def treeD : TSNode :=
  N "SOURCE_FILE" true none 0 2 [
    N "LOCAL" true none 0 2 [
      tok "%" 0 1, N "IDENT" true (some "name") 1 2 []]]

/-- Example document E: one function that defines one local and reads
another. -/
def docE : Doc := "function $f() {@a %x =w copy %y ret}".toList

/-- The syntax tree of `docE`. -/
def treeE : TSNode :=
  N "SOURCE_FILE" true none 0 36 [
    N "FUNCDEF" true none 0 36 [
      tok "function" 0 8,
            N "GLOBAL" true (some "name") 9 11 [
        tok "$" 9 10, N "IDENT" true (some "name") 10 11 []],
      N "FUNCDEF_PARAMS" true (some "params") 11 13 [],
      tok "\x7b" 14 15,
      N "BLOCK" true none 15 35 [
        N "LABEL" true (some "label") 15 17 [
        tok "@" 15 16, N "IDENT" true (some "name") 16 17 []],
        N "INST" true none 18 31 [
          N "LOCAL" true (some "assignment") 18 20 [
        tok "%" 18 19, N "IDENT" true (some "name") 19 20 []],
          tok "=w" 21 23, tok "copy" 24 28,
          N "LOCAL" true none 29 31 [
        tok "%" 29 30, N "IDENT" true (some "name") 30 31 []]],
        N "INST" true none 32 35 [tok "ret" 32 35]],
      tok "\x7d" 35 36]]


/-- The ranges of a rename reply, with replacement texts stripped. -/
def planSpans : OpOut (List (Span × Doc)) → OpOut (List Span)
  | .panic => .panic
  | .err e => .err e
  | .ok es => .ok (es.map Prod.fst)

/-- The replacement texts of a rename reply (empty unless it succeeded). -/
def planTexts : OpOut (List (Span × Doc)) → List Doc
  | .ok es => es.map Prod.snd
  | _ => []

/-- `a` is a node of the subtree rooted at `t`. -/
inductive SubT : TSNode → TSNode → Prop where
  | refl (t : TSNode) : SubT t t
  | child {a c t : TSNode} : c ∈ t.children → SubT a c → SubT a t

/-- `a` is a strict descendant of `t`. -/
def SubTstrict (a t : TSNode) : Prop :=
  ∃ c ∈ t.children, SubT a c

/-- Disjointness of two half-open spans. -/
def spanDisj (a b : Span) : Prop :=
  a.stop ≤ b.start ∨ b.stop ≤ a.start

/-- The first function definition of `treeB`. -/
def fdB1 : TSNode := (getPath treeB [0]).getD (tok "" 0 0)

/-- The identifier of the assignment target in the first function of
`treeB`. -/
def idB1 : TSNode := (getPath treeB [0, 4, 1, 0, 1]).getD (tok "" 0 0)

/-- The identifier of the return operand in the first function of
`treeB`. -/
def idB2 : TSNode := (getPath treeB [0, 4, 2, 1, 1]).getD (tok "" 0 0)

/-- The identifier of the first function name in `treeC`. -/
def idC1 : TSNode := (getPath treeC [0, 1, 1]).getD (tok "" 0 0)

/-- The location list of a references reply (empty unless present). -/
def refSpansOf : OpOut (Option (List Span)) → List Span
  | .ok (some l) => l
  | _ => []

/-- The location list of a goto-definition reply. -/
def gotoSpansOf : OpOut (Option GotoResp) → List Span
  | .ok (some (.Scalar s)) => [s]
  | .ok (some (.Array ss)) => ss
  | _ => []

/-- The function definition node of `treeA`. -/
def fdA : TSNode := (getPath treeA [0]).getD (tok "" 0 0)

/-- The identifier of the assignment target in `treeA`. -/
def idA2 : TSNode := (getPath treeA [0, 4, 2, 0, 1]).getD (tok "" 0 0)

/-- The identifier of the use occurrence (before the definition) in
`treeA`. -/
def idA1 : TSNode := (getPath treeA [0, 4, 1, 1, 1]).getD (tok "" 0 0)

/-- The LOCAL wrapper of the assignment target of `treeA`. -/
def locA2 : TSNode := (getPath treeA [0, 4, 2, 0]).getD (tok "" 0 0)

/-- The defining instruction node of `treeA`. -/
def instA2 : TSNode := (getPath treeA [0, 4, 2]).getD (tok "" 0 0)

/-- A byte position not strictly inside any of a list of edited spans. -/
def cleanPt (es : List Span) (p : Nat) : Prop :=
  ∀ sp ∈ es, p ≤ sp.start ∨ sp.stop ≤ p

/-! ### Generic lemmas about the helper functions -/

theorem uniqueFirst_sublist {α : Type} [DecidableEq α] (l : List α) :
    (uniqueFirst l).Sublist l := by
  induction l with
  | nil => simp [uniqueFirst]
  | cons x xs ih =>
    rw [uniqueFirst]
    exact ((List.filter_sublist _).trans ih).cons₂ x

theorem mem_uniqueFirst {α : Type} [DecidableEq α] (l : List α) (a : α) :
    a ∈ uniqueFirst l ↔ a ∈ l := by
  induction l with
  | nil => simp [uniqueFirst]
  | cons x xs ih =>
    rw [uniqueFirst]
    by_cases hax : a = x
    · subst hax; simp
    · simp [List.mem_filter, hax, ih]

theorem uniqueFirst_nodup {α : Type} [DecidableEq α] (l : List α) :
    (uniqueFirst l).Nodup := by
  induction l with
  | nil => simp [uniqueFirst]
  | cons x xs ih =>
    rw [uniqueFirst]
    refine List.nodup_cons.mpr ⟨?_, List.Nodup.filter _ ih⟩
    intro hx
    simp [List.mem_filter] at hx

theorem uniqueFirst_pairwise {α : Type} [DecidableEq α] (l : List α)
    (r : α → α → Prop) (h : l.Pairwise r) : (uniqueFirst l).Pairwise r :=
  List.Pairwise.sublist (uniqueFirst_sublist l) h

theorem collectN_eq (f : TSNode → List TSNode) (t : TSNode) :
    collectN f t = f t ++ collectL f t.children := by
  cases t with
  | node k nm fl sp cs => rfl

theorem renameWalkN_eq (src old : Doc) (kd : String) (t : TSNode) :
    renameWalkN src old kd t = renameWalkL src old kd t.children := by
  cases t with
  | node k nm fl sp cs => rfl

theorem mapSpanF_eq (F : Nat → Nat) (t : TSNode) :
    mapSpanF F t =
      .node t.kind t.isNamed t.fld ⟨F t.span.start, F t.span.stop⟩
        (mapSpanL F t.children) := by
  cases t with
  | node k nm fl sp cs => rfl

theorem mapSpanL_eq_map (F : Nat → Nat) (cs : List TSNode) :
    mapSpanL F cs = cs.map (mapSpanF F) := by
  induction cs with
  | nil => rfl
  | cons c cs ih => simp [mapSpanL, ih]

theorem wfN_eq (t : TSNode) :
    wfN t =
      (decide (t.span.start < t.span.stop) &&
       t.children.all (fun c => spanIn c.span t.span) &&
       sibOrdered t.children &&
       (!t.isNamed → t.children.isEmpty) &&
       (t.kind == "IDENT" → t.children.isEmpty) &&
       (isWrapKind t.kind →
         (t.isNamed &&
           match t.children.filter (fun c => c.isNamed) with
           | [c] => c.kind == "IDENT" && c.fld == some "name"
           | _ => false)) &&
       wfL t.children) := by
  cases t with
  | node k nm fl sp cs => rfl

/-- Child sizes are smaller, for strong induction over trees. -/
theorem sizeOf_lt_of_mem_children {c t : TSNode} (h : c ∈ t.children) :
    sizeOf c < sizeOf t := by
  cases t with
  | node k nm fl sp cs =>
    have h1 : sizeOf c < sizeOf cs := List.sizeOf_lt_of_mem h
    simp only [TSNode.node.sizeOf_spec]
    omega

/-- Strong induction over a tree via its children. -/
theorem TSNode.strongInd (motive : TSNode → Prop)
    (h : ∀ t : TSNode, (∀ c ∈ t.children, motive c) → motive t) :
    ∀ t, motive t := by
  intro t
  suffices hn : ∀ n (u : TSNode), sizeOf u ≤ n → motive u from
    hn (sizeOf t) t le_rfl
  intro n
  induction n with
  | zero =>
    intro u hu
    cases u with
    | node k nm fl sp cs => simp [TSNode.node.sizeOf_spec] at hu
  | succ n ih =>
    intro u hu
    refine h u (fun c hc => ih c ?_)
    have := sizeOf_lt_of_mem_children hc
    omega

/-! ### Well-formedness destructors and span lemmas -/

theorem wfL_mem {cs : List TSNode} {c : TSNode} (h : wfL cs = true)
    (hc : c ∈ cs) : wfN c = true := by
  induction cs with
  | nil => cases hc
  | cons d ds ih =>
    simp only [wfL, Bool.and_eq_true] at h
    rcases List.mem_cons.mp hc with rfl | hm
    · exact h.1
    · exact ih h.2 hm

theorem wfN_parts {t : TSNode} (h : wfN t = true) :
    t.span.start < t.span.stop ∧
    (∀ c ∈ t.children, spanIn c.span t.span = true) ∧
    sibOrdered t.children = true ∧
    (t.isNamed = false → t.children = []) ∧
    (t.kind = "IDENT" → t.children = []) ∧
    wfL t.children = true := by
  rw [wfN_eq] at h
  simp only [Bool.and_eq_true, decide_eq_true_eq, List.all_eq_true] at h
  obtain ⟨⟨⟨⟨⟨⟨h1, h2⟩, h3⟩, h4⟩, h5⟩, _h6⟩, h7⟩ := h
  refine ⟨h1, h2, h3, ?_, ?_, h7⟩
  · intro hnm
    have := h4
    rw [hnm] at this
    simpa using List.isEmpty_iff.mp (by simpa using this)
  · intro hk
    have : (t.kind == "IDENT") = true := by simp [hk]
    simpa using List.isEmpty_iff.mp (by simpa using h5 this)

theorem wfN_wrap {t : TSNode} (h : wfN t = true)
    (hw : isWrapKind t.kind = true) :
    t.isNamed = true ∧
    ∃ c, t.children.filter (fun c => c.isNamed) = [c] ∧
      c.kind = "IDENT" ∧ c.fld = some "name" := by
  rw [wfN_eq] at h
  simp only [Bool.and_eq_true] at h
  obtain ⟨⟨_, h6⟩, _⟩ := h
  rw [decide_eq_true_eq] at h6
  have h6' := h6 hw
  refine ⟨h6'.1, ?_⟩
  have h62 := h6'.2
  rcases hf : t.children.filter (fun c => c.isNamed) with _ | ⟨c, rest⟩
  · rw [hf] at h62; simp at h62
  · rcases rest with _ | ⟨d, rest2⟩
    · rw [hf] at h62
      simp only [Bool.and_eq_true, beq_iff_eq] at h62
      exact ⟨c, hf, h62.1, h62.2⟩
    · rw [hf] at h62; simp at h62

theorem wfN_child {t c : TSNode} (h : wfN t = true) (hc : c ∈ t.children) :
    wfN c = true :=
  wfL_mem (wfN_parts h).2.2.2.2.2 hc

theorem spanIn_trans {a b c : Span} (h1 : spanIn a b = true)
    (h2 : spanIn b c = true) : spanIn a c = true := by
  simp only [spanIn, Bool.and_eq_true, decide_eq_true_eq] at *
  omega

theorem SubT.span_in {a t : TSNode} (hw : wfN t = true) (h : SubT a t) :
    spanIn a.span t.span = true := by
  induction h with
  | refl => simp [spanIn]
  | child hc hsub ih =>
    exact spanIn_trans (ih (wfN_child hw hc)) ((wfN_parts hw).2.1 _ hc)

theorem sibOrdered_cases {cs : List TSNode} (h : sibOrdered cs = true)
    {c d : TSNode} (hc : c ∈ cs) (hd : d ∈ cs) :
    c = d ∨ spanDisj c.span d.span := by
  induction cs with
  | nil => cases hc
  | cons e es ih =>
    simp only [sibOrdered, Bool.and_eq_true, List.all_eq_true,
      decide_eq_true_eq] at h
    rcases List.mem_cons.mp hc with rfl | hmc
    · rcases List.mem_cons.mp hd with rfl | hmd
      · exact Or.inl rfl
      · exact Or.inr (Or.inl (h.1 _ hmd))
    · rcases List.mem_cons.mp hd with rfl | hmd
      · exact Or.inr (Or.inr (h.1 _ hmc))
      · exact ih h.2 hmc hmd

theorem subT_of_leaf {a t : TSNode} (h : t.children = []) (hs : SubT a t) :
    a = t := by
  cases hs with
  | refl => rfl
  | child hc _ => rw [h] at hc; cases hc

/-- In a well-formed tree, two subtree nodes are related by the subtree
order or have disjoint spans. -/
theorem subT_trichotomy {a t : TSNode} (h1 : SubT a t) :
    wfN t = true → ∀ b, SubT b t →
    SubT a b ∨ SubT b a ∨ spanDisj a.span b.span := by
  induction h1 with
  | refl =>
    intro _ b hb
    exact Or.inr (Or.inl hb)
  | child hc hsub ih =>
    intro hw b hb
    cases hb with
    | refl => exact Or.inl (SubT.child hc hsub)
    | child hd hsubB =>
      rcases sibOrdered_cases (wfN_parts hw).2.2.1 hc hd with rfl | hdisj
      · exact ih (wfN_child hw hc) b hsubB
      · refine Or.inr (Or.inr ?_)
        have ha := SubT.span_in (wfN_child hw hc) hsub
        have hb2 := SubT.span_in (wfN_child hw hd) hsubB
        simp only [spanIn, Bool.and_eq_true, decide_eq_true_eq] at ha hb2
        rcases hdisj with h' | h'
        · exact Or.inl (by unfold spanDisj at *; omega)
        · exact Or.inr (by unfold spanDisj at *; omega)

/-- The subtree of a well-formed wrapping node is the node and its (leaf)
children. -/
theorem subT_wrap {a w : TSNode} (hw : wfN w = true)
    (hk : isWrapKind w.kind = true) (hs : SubT a w) :
    a = w ∨ a ∈ w.children := by
  cases hs with
  | refl => exact Or.inl rfl
  | child hc hsub =>
    rename_i c
    refine Or.inr ?_
    have hcw := wfN_child hw hc
    have hcleaf : c.children = [] := by
      by_cases hnm : c.isNamed
      · obtain ⟨_, u, hflt, hu1, _⟩ := wfN_wrap hw hk
        have hcin : c ∈ w.children.filter (fun x => x.isNamed) := by
          simp [List.mem_filter, hc, hnm]
        rw [hflt] at hcin
        simp at hcin
        subst hcin
        exact (wfN_parts hcw).2.2.2.2.1 hu1
      · exact (wfN_parts hcw).2.2.2.1 (by simpa using hnm)
    rw [subT_of_leaf hcleaf hsub]
    exact hc

theorem mem_collectL (f : TSNode → List TSNode) (cs : List TSNode)
    (x : TSNode) : x ∈ collectL f cs ↔ ∃ c ∈ cs, x ∈ collectN f c := by
  induction cs with
  | nil => simp [collectL]
  | cons c cs ih =>
    simp only [collectL, List.mem_append, ih, List.mem_cons]
    constructor
    · rintro (hx | ⟨d, hd, hxd⟩)
      · exact ⟨c, Or.inl rfl, hx⟩
      · exact ⟨d, Or.inr hd, hxd⟩
    · rintro ⟨d, rfl | hd, hxd⟩
      · exact Or.inl hxd
      · exact Or.inr ⟨d, hd, hxd⟩

theorem mem_collectN (f : TSNode → List TSNode) :
    ∀ t x, x ∈ collectN f t ↔ ∃ n, SubT n t ∧ x ∈ f n := by
  refine TSNode.strongInd
    (fun t => ∀ x, x ∈ collectN f t ↔ ∃ n, SubT n t ∧ x ∈ f n) ?_
  intro t ih x
  rw [collectN_eq, List.mem_append]
  constructor
  · rintro (hx | hx)
    · exact ⟨t, SubT.refl t, hx⟩
    · obtain ⟨c, hc, hxc⟩ := (mem_collectL f t.children x).mp hx
      obtain ⟨n, hsub, hf⟩ := (ih c hc x).mp hxc
      exact ⟨n, SubT.child hc hsub, hf⟩
  · rintro ⟨n, hsub, hf⟩
    cases hsub with
    | refl => exact Or.inl hf
    | child hc hsub2 =>
      exact Or.inr ((mem_collectL f t.children x).mpr
        ⟨_, hc, (ih _ hc x).mpr ⟨n, hsub2, hf⟩⟩)

theorem mem_queryCaptures (f : TSNode → List TSNode) (t x : TSNode) :
    x ∈ queryCaptures f t ↔ ∃ n, SubT n t ∧ x ∈ f n := by
  rw [queryCaptures, (List.perm_insertionSort _ _).mem_iff, mem_collectN]

theorem mem_refMatchAt {src : Doc} {k : IdentKind} {nm : Doc}
    {w : Option Span} {n x : TSNode} :
    x ∈ refMatchAt src k nm w n ↔
      (x = n ∧ n.isNamed = true ∧ n.kind = k.kind ∧
       ∃ idc, nameFieldIdent n = some idc ∧ nodeText src idc = nm ∧
         interO w n.span = true ∧ interO w idc.span = true) := by
  unfold refMatchAt
  by_cases h1 : (n.isNamed && n.kind == k.kind) = true
  case neg =>
    rw [if_neg h1]
    simp only [Bool.and_eq_true, beq_iff_eq] at h1
    simp only [List.not_mem_nil, false_iff]
    rintro ⟨rfl, h2, h3, _⟩
    exact h1 ⟨h2, h3⟩
  case pos =>
    rw [if_pos h1]
    simp only [Bool.and_eq_true, beq_iff_eq] at h1
    cases h2 : nameFieldIdent n with
    | none => simp [h1]
    | some idc =>
      dsimp only
      by_cases h3 : (nodeText src idc == nm && interO w n.span &&
          interO w idc.span) = true
      · rw [if_pos h3]
        simp only [Bool.and_eq_true, beq_iff_eq] at h3
        simp only [List.mem_cons, List.not_mem_nil, or_false]
        constructor
        · rintro (rfl | rfl) <;>
            exact ⟨rfl, h1.1, h1.2, idc, rfl, h3.1.1, h3.1.2, h3.2⟩
        · rintro ⟨rfl, _⟩; exact Or.inl rfl
      · rw [if_neg h3]
        simp only [List.not_mem_nil, false_iff]
        rintro ⟨rfl, -, -, idc2, hsome, ht, hi1, hi2⟩
        injection hsome with he
        subst he
        exact h3 (by simp [ht, hi1, hi2])

theorem getPath_append (p : TPath) (i : Nat) :
    ∀ t : TSNode, getPath t (p ++ [i]) =
      (getPath t p).bind (fun n => n.children[i]?) := by
  induction p with
  | nil =>
    intro t
    simp only [List.nil_append, getPath]
    cases h : t.children[i]? with
    | none => simp [getPath, h]
    | some c => simp [getPath, h]
  | cons j p ih =>
    intro t
    simp only [List.cons_append, getPath]
    cases h : t.children[j]? with
    | none => simp
    | some c => simp [ih c]

theorem findIdx?_getElem {α : Type} (p : α → Bool) :
    ∀ (l : List α) (i0 i : Nat), List.findIdx? p l i0 = some i →
      i0 ≤ i ∧ ∃ x, l[i - i0]? = some x ∧ p x = true ∧
        l.find? p = some x := by
  intro l
  induction l with
  | nil => intro i0 i h; exact Option.noConfusion h
  | cons a as ih =>
    intro i0 i h
    rw [List.findIdx?_cons] at h
    by_cases hp : p a
    · rw [if_pos hp] at h
      cases h
      exact ⟨le_rfl, a, by simp, hp, by rw [List.find?_cons_of_pos _ hp]⟩
    · rw [if_neg hp] at h
      obtain ⟨h0, x, hx1, hx2, hx3⟩ := ih (i0 + 1) i h
      refine ⟨by omega, x, ?_, hx2, ?_⟩
      · have he : i - i0 = (i - (i0 + 1)) + 1 := by omega
        rw [he, List.getElem?_cons_succ]
        exact hx1
      · rw [List.find?_cons_of_neg _ hp]
        exact hx3

theorem findIdx?_zero_getElem {α : Type} (p : α → Bool) (l : List α)
    (i : Nat) (h : List.findIdx? p l = some i) :
    ∃ x, l[i]? = some x ∧ p x = true ∧ l.find? p = some x := by
  obtain ⟨h0, x, hx1, hx2, hx3⟩ := findIdx?_getElem p l 0 i h
  exact ⟨x, by simpa using hx1, hx2, hx3⟩

/-- What a successful classification provides: the identifier node exists,
it is a child of a wrapping node of the classified kind, and the wrapper
is the parent along the path. -/
theorem find_ident_node_spec {t : TSNode} {cp ip : TPath} {k : IdentKind}
    (h : find_ident_node t cp = some (ip, k)) :
    ∃ w idN, getPath t ip.dropLast = some w ∧ getPath t ip = some idN ∧
      is_renamable w = some k ∧ idN ∈ w.children ∧
      (namedChild0 w = some idN ∨ idN.kind = "IDENT") := by
  unfold find_ident_node at h
  cases hcp : getPath t cp with
  | none => rw [hcp] at h; cases h
  | some n =>
    rw [hcp] at h
    dsimp only at h
    cases hren : is_renamable n with
    | some k2 =>
      rw [hren] at h
      dsimp only at h
      cases hidx : namedChild0Idx n with
      | none => rw [hidx] at h; cases h
      | some i =>
        rw [hidx] at h
        dsimp only at h
        cases h
        obtain ⟨x, hx1, hx2, hx3⟩ := findIdx?_zero_getElem _ n.children i hidx
        refine ⟨n, x, ?_, ?_, hren, ?_, Or.inl hx3⟩
        · simpa [List.dropLast_append_cons] using hcp
        · rw [getPath_append, hcp]
          simpa using hx1
        · exact List.getElem?_mem hx1
    | none =>
      rw [hren] at h
      dsimp only at h
      by_cases hident : (n.kind == "IDENT") = true
      · rw [if_pos hident] at h
        cases cp with
        | nil => simp at h
        | cons j q =>
          dsimp only at h
          cases hpar : getPath t (j :: q).dropLast with
          | none => rw [hpar] at h; cases h
          | some par =>
            rw [hpar] at h
            dsimp only at h
            cases hrenp : is_renamable par with
            | none => rw [hrenp] at h; cases h
            | some k3 =>
              rw [hrenp] at h
              dsimp only at h
              cases h
              refine ⟨par, n, hpar, hcp, hrenp, ?_, Or.inr (by simpa using hident)⟩
              -- n is the child of par at the last index of the path
              have hsplit : j :: q = (j :: q).dropLast ++ [(j :: q).getLast (by simp)] := by
                simp [List.dropLast_append_getLast]
              have := hcp
              rw [hsplit, getPath_append, hpar] at this
              dsimp only [Option.bind] at this
              exact List.getElem?_mem this
      · rw [if_neg hident] at h; cases h

/-- C2 (counterexample): at byte 36 of document A the smallest covering
named node is the NUMBER literal, which is not classifiable; the claim
says none of the four operations returns an error, but `rename` answers
with an internal error. -/
theorem c2_unclassifiable_rename_errors_cex :
    (∃ cp, namedDescPath treeA 36 = some cp ∧
      find_ident_node treeA cp = none) ∧
    rename docA treeA 36 "z".toList = .err .internalError := by
  exact ⟨⟨[0, 4, 2, 3], by decide, by decide⟩, by decide⟩

/-- C2 (amended): for every cursor position whose smallest covering named
node is not classifiable, locate-definition, find-references and
prepare-rename return an empty or absent result and no error, while
rename returns an internal error. -/
theorem c2_unclassifiable_ops_amended (src : Doc) (t : TSNode) (b : Nat)
    (cp : TPath) (h1 : namedDescPath t b = some cp)
    (h2 : find_ident_node t cp = none) :
    prepare_rename src t b = .ok none ∧
    references src t b = .ok none ∧
    goto_definition src t b = .ok none ∧
    ∀ nn : Doc, rename src t b nn = .err .internalError := by
  refine ⟨?_, ?_, ?_, fun nn => ?_⟩ <;>
    simp [prepare_rename, references, goto_definition, rename, h1, h2]

/-- C2 (amended, witness): the amended statement instantiated at byte 36
of document A. -/
theorem c2_unclassifiable_ops_amended_witness :
    prepare_rename docA treeA 36 = .ok none ∧
    references docA treeA 36 = .ok none ∧
    goto_definition docA treeA 36 = .ok none ∧
    ∀ nn : Doc, rename docA treeA 36 nn = .err .internalError :=
  c2_unclassifiable_ops_amended docA treeA 36 [0, 4, 2, 3]
    (by decide) (by decide)

/-- C6: a Local or Label occurrence with no ancestor function definition:
rename is refused with an explicit invalid-params error, while
locate-definition and find-references answer with an absent result and no
error. -/
theorem c6_no_enclosing_scope (src : Doc) (t : TSNode) (b : Nat)
    (cp ip : TPath) (k : IdentKind)
    (h1 : namedDescPath t b = some cp)
    (h2 : find_ident_node t cp = some (ip, k))
    (hk : k = .Local ∨ k = .Label)
    (hfd : find_funcdef_from_child_node t ip = none) :
    (∀ nn : Doc, rename src t b nn =
      .err (.invalidParams "Cant rename local or label outside funcdef")) ∧
    references src t b = .ok none ∧
    goto_definition src t b = .ok none := by
  obtain ⟨w, idN, hw, hid, hren, hmem, hnc⟩ := find_ident_node_spec h2
  rcases hk with rfl | rfl <;>
    exact ⟨fun nn => by simp [rename, h1, h2, hid, hfd],
      by simp [references, h1, h2, hid, hfd],
      by simp [goto_definition, h1, h2, hid, hfd]⟩

/-- C6 (witness): instantiated at document D, a bare local outside any
function. -/
theorem c6_no_enclosing_scope_witness :
    (∀ nn : Doc, rename docD treeD 1 nn =
      .err (.invalidParams "Cant rename local or label outside funcdef")) ∧
    references docD treeD 1 = .ok none ∧
    goto_definition docD treeD 1 = .ok none :=
  c6_no_enclosing_scope docD treeD 1 [0, 1] [0, 1] .Local
    (by decide) (by decide) (Or.inl rfl) (by decide)

/-- C10: the ranges of the edit plan produced by rename do not depend on
the new name — any two new names (the empty string included) give plans
with identical ranges and outcomes of identical shape — and all the
replacement texts of a plan are exactly the requested new name. -/
theorem c10_rename_plan_ranges_independent (src : Doc) (t : TSNode)
    (b : Nat) (n1 n2 : Doc) :
    planSpans (rename src t b n1) = planSpans (rename src t b n2) ∧
    planTexts (rename src t b n1) =
      List.replicate (planTexts (rename src t b n1)).length n1 := by
  constructor <;>
  · unfold rename
    cases namedDescPath t b with
    | none => rfl
    | some cp =>
      dsimp only
      cases find_ident_node t cp with
      | none => rfl
      | some pk =>
        obtain ⟨ip, k⟩ := pk
        dsimp only
        cases getPath t ip with
        | none => rfl
        | some idN =>
          dsimp only
          cases k <;> dsimp only <;>
            first
            | (cases find_funcdef_from_child_node t ip with
               | none => rfl
               | some fp =>
                 dsimp only
                 cases getPath t fp with
                 | none => rfl
                 | some fd =>
                   dsimp only
                   cases renameWalkN src (nodeText src idN) _ fd with
                   | none => rfl
                   | some ids =>
                     simp [planSpans, planTexts, List.eq_replicate_iff])
            | (cases renameWalkN src (nodeText src idN) _ t with
               | none => rfl
               | some ids =>
                 simp [planSpans, planTexts, List.eq_replicate_iff])

theorem renameWalkL_cons_inv {src old : Doc} {kd : String} {c : TSNode}
    {cs : List TSNode} {l : List TSNode}
    (h : renameWalkL src old kd (c :: cs) = some l) :
    ∃ here rest, l = here ++ rest ∧
      renameWalkL src old kd cs = some rest ∧
      ((c.kind = kd ∧ ∃ idc, namedChild0 c = some idc ∧
          here = (if nodeText src idc = old then [idc] else [])) ∨
       (c.kind ≠ kd ∧ renameWalkN src old kd c = some here)) := by
  rw [renameWalkL] at h
  by_cases hk : (c.kind == kd) = true
  · rw [if_pos hk] at h
    cases hnc : namedChild0 c with
    | none => rw [hnc] at h; exact absurd h (by simp)
    | some idc =>
      rw [hnc] at h
      dsimp only at h
      cases hrest : renameWalkL src old kd cs with
      | none => rw [hrest] at h; exact absurd h (by simp)
      | some rest =>
        rw [hrest] at h
        dsimp only at h
        refine ⟨_, rest, ?_, rfl, Or.inl ⟨by simpa using hk, idc, rfl, rfl⟩⟩
        cases h
        by_cases ht : (nodeText src idc == old) = true
        · simp only [beq_iff_eq] at ht
          simp [ht]
        · simp only [beq_iff_eq] at ht
          simp [ht]
  · rw [if_neg hk] at h
    cases hrec : renameWalkN src old kd c with
    | none => rw [hrec] at h; exact absurd h (by simp)
    | some here =>
      rw [hrec] at h
      dsimp only at h
      cases hrest : renameWalkL src old kd cs with
      | none => rw [hrest] at h; exact absurd h (by simp)
      | some rest =>
        rw [hrest] at h
        dsimp only at h
        cases h
        exact ⟨here, rest, rfl, rfl, Or.inr ⟨by simpa using hk, rfl⟩⟩

theorem renameWalk_sound {src old : Doc} {kd : String} :
    ∀ n : TSNode, ∀ l, renameWalkN src old kd n = some l →
      ∀ x ∈ l, ∃ w, SubTstrict w n ∧ w.kind = kd ∧
        namedChild0 w = some x ∧ nodeText src x = old := by
  refine TSNode.strongInd (fun n => ∀ l, renameWalkN src old kd n = some l →
    ∀ x ∈ l, ∃ w, SubTstrict w n ∧ w.kind = kd ∧
      namedChild0 w = some x ∧ nodeText src x = old) ?_
  intro n ih l hl x hx
  rw [renameWalkN_eq] at hl
  suffices hgen : ∀ cs, (∀ c ∈ cs, c ∈ n.children) → ∀ l2,
      renameWalkL src old kd cs = some l2 → ∀ y ∈ l2,
      ∃ c ∈ cs, ∃ w, SubT w c ∧ w.kind = kd ∧
        namedChild0 w = some y ∧ nodeText src y = old by
    obtain ⟨c, hc, w, hsub, h1, h2, h3⟩ :=
      hgen n.children (fun c hc => hc) l hl x hx
    exact ⟨w, ⟨c, hc, hsub⟩, h1, h2, h3⟩
  intro cs
  induction cs with
  | nil =>
    intro _ l2 hl2 y hy
    rw [renameWalkL] at hl2
    cases hl2
    cases hy
  | cons c cs ihc =>
    intro hsubset l2 hl2 y hy
    obtain ⟨here, rest, rfl, hrest, hcase⟩ := renameWalkL_cons_inv hl2
    rcases List.mem_append.mp hy with hyh | hyr
    · rcases hcase with ⟨hk, idc, hnc, rfl⟩ | ⟨hk, hrec⟩
      · by_cases ht : nodeText src idc = old
        · rw [if_pos ht] at hyh
          simp only [List.mem_singleton] at hyh
          subst hyh
          exact ⟨c, List.mem_cons_self c cs, c, SubT.refl c, hk, hnc, ht⟩
        · rw [if_neg ht] at hyh
          cases hyh
      · obtain ⟨w, ⟨d, hd, hsub⟩, h1, h2, h3⟩ :=
          ih c (hsubset c (List.mem_cons_self c cs)) here hrec y hyh
        exact ⟨c, List.mem_cons_self c cs, w, SubT.child hd hsub, h1, h2, h3⟩
    · obtain ⟨d, hd, w, hsub, h1, h2, h3⟩ :=
        ihc (fun e he => hsubset e (List.mem_cons_of_mem c he)) rest hrest y hyr
      exact ⟨d, List.mem_cons_of_mem c hd, w, hsub, h1, h2, h3⟩

theorem find?_eq_head_filter {α : Type} (p : α → Bool) (l : List α) :
    l.find? p = (l.filter p).head? := by
  induction l with
  | nil => simp
  | cons a as ih =>
    by_cases hp : p a
    · rw [List.find?_cons_of_pos _ hp, List.filter_cons_of_pos hp]
      rfl
    · rw [List.find?_cons_of_neg _ hp, List.filter_cons_of_neg hp, ih]

/-- The unique named child of a well-formed wrapping node, which is also
the node the query field predicate selects. -/
theorem namedChild0_of_wrap {c : TSNode} (hw : wfN c = true)
    (hk : isWrapKind c.kind = true) :
    ∃ u, namedChild0 c = some u ∧ u.kind = "IDENT" ∧ u.fld = some "name" ∧
      u.isNamed = true ∧ u ∈ c.children ∧
      c.children.filter (fun x => x.isNamed) = [u] ∧
      nameFieldIdent c = some u := by
  obtain ⟨hnm, u, hflt, hu1, hu2⟩ := wfN_wrap hw hk
  have hfind : namedChild0 c = some u := by
    rw [namedChild0, find?_eq_head_filter, hflt]
    rfl
  have humem : u ∈ c.children := by
    have : u ∈ c.children.filter (fun x => x.isNamed) := by rw [hflt]; simp
    exact (List.mem_filter.mp this).1
  have hunm : u.isNamed = true := by
    have : u ∈ c.children.filter (fun x => x.isNamed) := by rw [hflt]; simp
    exact (List.mem_filter.mp this).2
  have hnfi : nameFieldIdent c = some u := by
    rw [nameFieldIdent, find?_eq_head_filter]
    have hff : c.children.filter (fun x =>
        x.fld == some "name" && x.kind == "IDENT" && x.isNamed) =
        (c.children.filter (fun x => x.isNamed)).filter
          (fun x => x.fld == some "name" && x.kind == "IDENT") := by
      rw [List.filter_filter]
    rw [hff, hflt]
    simp [hu1, hu2]
  exact ⟨u, hfind, hu1, hu2, hunm, humem, hflt, hnfi⟩

theorem renameWalk_no_panic {src old : Doc} {kd : String}
    (hkd : isWrapKind kd = true) :
    ∀ n : TSNode, wfN n = true →
      ∃ l, renameWalkN src old kd n = some l := by
  refine TSNode.strongInd
    (fun n => wfN n = true → ∃ l, renameWalkN src old kd n = some l) ?_
  intro n ih hw
  rw [renameWalkN_eq]
  suffices hgen : ∀ cs, (∀ c ∈ cs, c ∈ n.children) →
      ∃ l, renameWalkL src old kd cs = some l from
    hgen n.children (fun c hc => hc)
  intro cs
  induction cs with
  | nil => exact fun _ => ⟨[], rfl⟩
  | cons c cs ihc =>
    intro hsub
    obtain ⟨rest, hrest⟩ := ihc (fun e he => hsub e (List.mem_cons_of_mem c he))
    have hcmem := hsub c (List.mem_cons_self c cs)
    have hwc : wfN c = true := wfN_child hw hcmem
    by_cases hk : (c.kind == kd) = true
    · have hkc : isWrapKind c.kind = true := by
        rw [beq_iff_eq] at hk; rw [hk]; exact hkd
      obtain ⟨u, hu, -, -, -, -, -, -⟩ := namedChild0_of_wrap hwc hkc
      refine ⟨(if nodeText src u == old then [u] else []) ++ rest, ?_⟩
      rw [renameWalkL, if_pos hk, hu]
      dsimp only
      rw [hrest]
    · obtain ⟨here, hhere⟩ := ih c hcmem hwc
      refine ⟨here ++ rest, ?_⟩
      rw [renameWalkL, if_neg hk, hhere]
      dsimp only
      rw [hrest]

theorem renameWalk_complete {src old : Doc} {kd : String}
    (hkd : isWrapKind kd = true) :
    ∀ n : TSNode, wfN n = true →
      ∀ l, renameWalkN src old kd n = some l →
      ∀ w x, SubTstrict w n → w.kind = kd → namedChild0 w = some x →
        nodeText src x = old → x ∈ l := by
  refine TSNode.strongInd (fun n => wfN n = true →
    ∀ l, renameWalkN src old kd n = some l →
    ∀ w x, SubTstrict w n → w.kind = kd → namedChild0 w = some x →
      nodeText src x = old → x ∈ l) ?_
  intro n ih hw l hl w x hws hwk hwc hwt
  rw [renameWalkN_eq] at hl
  obtain ⟨c, hc, hsub⟩ := hws
  suffices hgen : ∀ cs, (∀ e ∈ cs, e ∈ n.children) → ∀ l2,
      renameWalkL src old kd cs = some l2 → c ∈ cs → x ∈ l2 from
    hgen n.children (fun e he => he) l hl hc
  intro cs
  induction cs with
  | nil => intro _ l2 _ hmem; cases hmem
  | cons e cs ihc =>
    intro hsubset l2 hl2 hmem
    obtain ⟨here, rest, rfl, hrest, hcase⟩ := renameWalkL_cons_inv hl2
    rcases List.mem_cons.mp hmem with rfl | hmem2
    · -- the wrapper lives inside the head child
      refine List.mem_append.mpr ?_
      have hwe : wfN c = true := wfN_child hw (hsubset c (List.mem_cons_self c cs))
      rcases hcase with ⟨hk, idc, hnc, rfl⟩ | ⟨hk, hrec⟩
      · -- head child is itself of the wrapping kind
        left
        have hek : isWrapKind c.kind = true := by rw [hk]; exact hkd
        have hwcases := subT_wrap hwe hek hsub
        have hwe2 : w = c := by
          rcases hwcases with rfl | hmemw
          · rfl
          · -- a wrapping node cannot be a child of a wrapping node
            exfalso
            have hww : wfN w = true := wfN_child hwe hmemw
            have hwkw : isWrapKind w.kind = true := by rw [hwk]; exact hkd
            have hnmw : w.isNamed = true := (wfN_wrap hww hwkw).1
            obtain ⟨u, -, hu1, -, -, -, hflt, -⟩ := namedChild0_of_wrap hwe hek
            have : w ∈ c.children.filter (fun y => y.isNamed) := by
              simp [List.mem_filter, hmemw, hnmw]
            rw [hflt] at this
            simp only [List.mem_singleton] at this
            have hkident : kd = "IDENT" := by rw [← hwk, this, hu1]
            rw [hkident] at hkd
            simp [isWrapKind] at hkd
        subst hwe2
        rw [hwc] at hnc
        cases hnc
        rw [if_pos hwt]
        simp
      · -- head child has a different kind: the walk recursed into it
        left
        have hne : w ≠ c := fun he => hk (he ▸ hwk)
        have hstrict : SubTstrict w c := by
          cases hsub with
          | refl => exact absurd rfl hne
          | child hd hsub2 => exact ⟨_, hd, hsub2⟩
        exact ih c (hsubset c (List.mem_cons_self c cs)) hwe here hrec
          w x hstrict hwk hwc hwt
    · exact List.mem_append.mpr (Or.inr
        (ihc (fun d hd => hsubset d (List.mem_cons_of_mem e hd)) rest hrest hmem2))

theorem renameWalk_ordered {src old : Doc} {kd : String} :
    ∀ n : TSNode, wfN n = true →
      ∀ l, renameWalkN src old kd n = some l →
      (∀ x ∈ l, spanIn x.span n.span = true ∧
        x.span.start < x.span.stop) ∧
      l.Pairwise (fun a b => a.span.stop ≤ b.span.start) := by
  refine TSNode.strongInd (fun n => wfN n = true →
    ∀ l, renameWalkN src old kd n = some l →
    (∀ x ∈ l, spanIn x.span n.span = true ∧ x.span.start < x.span.stop) ∧
    l.Pairwise (fun a b => a.span.stop ≤ b.span.start)) ?_
  intro n ih hw l hl
  rw [renameWalkN_eq] at hl
  suffices hgen : ∀ cs, (∀ c ∈ cs, c ∈ n.children) → wfL cs = true →
      sibOrdered cs = true → ∀ l2, renameWalkL src old kd cs = some l2 →
      (∀ x ∈ l2, (∃ c ∈ cs, spanIn x.span c.span = true) ∧
        x.span.start < x.span.stop) ∧
      l2.Pairwise (fun a b => a.span.stop ≤ b.span.start) by
    obtain ⟨h1, h2⟩ := hgen n.children (fun c hc => hc)
      (wfN_parts hw).2.2.2.2.2 (wfN_parts hw).2.2.1 l hl
    refine ⟨fun x hx => ?_, h2⟩
    obtain ⟨⟨c, hc, hin⟩, hwid⟩ := h1 x hx
    exact ⟨spanIn_trans hin ((wfN_parts hw).2.1 c hc), hwid⟩
  intro cs
  induction cs with
  | nil =>
    intro _ _ _ l2 hl2
    rw [renameWalkL] at hl2
    cases hl2
    simp
  | cons c cs ihc =>
    intro hsubset hwfl hsib l2 hl2
    simp only [wfL, Bool.and_eq_true] at hwfl
    simp only [sibOrdered, Bool.and_eq_true, List.all_eq_true,
      decide_eq_true_eq] at hsib
    obtain ⟨here, rest, rfl, hrest, hcase⟩ := renameWalkL_cons_inv hl2
    have hrestspec := ihc (fun e he => hsubset e (List.mem_cons_of_mem c he))
      hwfl.2 hsib.2 rest hrest
    have hherespec : (∀ x ∈ here, spanIn x.span c.span = true ∧
        x.span.start < x.span.stop) ∧
        here.Pairwise (fun a b => a.span.stop ≤ b.span.start) := by
      rcases hcase with ⟨hk, idc, hnc, rfl⟩ | ⟨hk, hrec⟩
      · obtain ⟨u, hu, -⟩ :=
          findIdx?_zero_getElem (fun y => y.isNamed) c.children
            ((c.children.findIdx? (fun y => y.isNamed)).getD 0) (by
              cases hfi : c.children.findIdx? (fun y => y.isNamed) with
              | none =>
                exfalso
                rw [namedChild0, find?_eq_head_filter] at hnc
                have : c.children.filter (fun y => y.isNamed) = [] := by
                  cases hms : c.children.filter (fun y => y.isNamed) with
                  | nil => rfl
                  | cons m ms =>
                    exfalso
                    have : c.children.findIdx? (fun y => y.isNamed) ≠ none := by
                      intro hcon
                      have hall : ∀ y ∈ c.children, y.isNamed = false := by
                        intro y hy
                        by_cases hyn : y.isNamed
                        · exfalso
                          have := List.findIdx?_eq_none_iff.mp hcon
                          have := this y hy
                          simp [hyn] at this
                        · simpa using hyn
                      have : m ∈ c.children.filter (fun y => y.isNamed) := by
                        rw [hms]; simp
                      have hm2 := List.mem_filter.mp this
                      rw [hall m hm2.1] at hm2
                      simpa using hm2.2
                    exact this hfi
                rw [this] at hnc
                cases hnc
              | some i2 => simp [hfi])
        -- idc is the node found by find?, with membership in c.children
        have hidc : idc ∈ c.children := by
          rw [namedChild0] at hnc
          exact List.mem_of_find?_eq_some hnc
        have hwc : wfN c = true := hwfl.1
        have hwidc : wfN idc = true := wfN_child hwc hidc
        constructor
        · intro x hx
          have hxidc : x = idc := by
            by_cases ht : nodeText src idc = old
            · rw [if_pos ht] at hx; simpa using hx
            · rw [if_neg ht] at hx; cases hx
          subst hxidc
          exact ⟨(wfN_parts hwc).2.1 _ hidc, (wfN_parts hwidc).1⟩
        · by_cases ht : nodeText src idc = old
          · rw [if_pos ht]; simp
          · rw [if_neg ht]; simp
      · have hwc : wfN c = true := hwfl.1
        obtain ⟨hin, hpw⟩ := ih c (hsubset c (List.mem_cons_self c cs)) hwc
          here hrec
        exact ⟨hin, hpw⟩
    constructor
    · intro x hx
      rcases List.mem_append.mp hx with hxh | hxr
      · obtain ⟨hin, hwid⟩ := hherespec.1 x hxh
        exact ⟨⟨c, List.mem_cons_self c cs, hin⟩, hwid⟩
      · obtain ⟨⟨d, hd, hin⟩, hwid⟩ := hrestspec.1 x hxr
        exact ⟨⟨d, List.mem_cons_of_mem c hd, hin⟩, hwid⟩
    · rw [List.pairwise_append]
      refine ⟨hherespec.2, hrestspec.2, ?_⟩
      intro a ha b hb
      obtain ⟨hina, -⟩ := hherespec.1 a ha
      obtain ⟨⟨d, hd, hinb⟩, -⟩ := hrestspec.1 b hb
      have hcd : c.span.stop ≤ d.span.start := hsib.1 d hd
      simp only [spanIn, Bool.and_eq_true, decide_eq_true_eq] at hina hinb
      omega

theorem wfN_subT {a t : TSNode} (hw : wfN t = true) (h : SubT a t) :
    wfN a = true := by
  induction h with
  | refl => exact hw
  | child hc _ ih => exact ih (wfN_child hw hc)

theorem isWrapKind_kind (k : IdentKind) : isWrapKind k.kind = true := by
  cases k <;> rfl

theorem is_renamable_of_kind {w : TSNode} {k : IdentKind}
    (h : w.kind = k.kind) : is_renamable w = some k := by
  cases k <;> simp_all [is_renamable, IdentKind.kind]

/-- C9: every node the rename planner records as an edit target is the
bare identifier child (the single named child, an IDENT node) of a
wrapping node of the target kind lying strictly inside the boundary
subtree, and its source text is byte-for-byte the old name; a node whose
text differs is never recorded. -/
theorem c9_planner_targets (src old : Doc) (k : IdentKind) (bd : TSNode)
    (hw : wfN bd = true) (l : List TSNode)
    (h : renameWalkN src old k.kind bd = some l) :
    ∀ x ∈ l, ∃ w, SubTstrict w bd ∧ w.kind = k.kind ∧
      namedChild0 w = some x ∧ x.kind = "IDENT" ∧ x.isNamed = true ∧
      nodeText src x = old ∧ spanIn x.span bd.span = true := by
  intro x hx
  obtain ⟨w, hstrict, hwk, hwc, hwt⟩ := renameWalk_sound bd l h x hx
  have hwsub : SubT w bd := by
    obtain ⟨c, hc, hsub⟩ := hstrict
    exact SubT.child hc hsub
  have hww : wfN w = true := wfN_subT hw hwsub
  have hwkw : isWrapKind w.kind = true := by
    rw [hwk]; exact isWrapKind_kind k
  obtain ⟨u, hu, hu1, -, hu3, -, -, -⟩ := namedChild0_of_wrap hww hwkw
  rw [hwc] at hu
  cases hu
  obtain ⟨hins, -⟩ := renameWalk_ordered bd hw l h
  exact ⟨w, hstrict, hwk, hwc, hu1, hu3, hwt, (hins x hx).1⟩

/-- C9 (witness): the planner run over the first function of document B
records the identifier of the assignment target, which is the IDENT child
of a LOCAL wrapper with the old text. -/
theorem c9_planner_targets_witness :
    ∃ w, SubTstrict w fdB1 ∧ w.kind = IdentKind.Local.kind ∧
      namedChild0 w = some idB1 ∧ idB1.kind = "IDENT" ∧
      idB1.isNamed = true ∧ nodeText docB idB1 = "x".toList ∧
      spanIn idB1.span fdB1.span = true :=
  c9_planner_targets docB "x".toList .Local fdB1 (by decide)
    [idB1, idB2] (by rfl) idB1 (List.mem_cons_self _ _)

/-- C5: for a Global or Aggregate occurrence, rename succeeds and its
edit plan contains an edit — the identifier range with the new name — for
every occurrence of that kind with exactly the old name anywhere in the
document, whichever function (if any) contains it. -/
theorem c5_global_rename_program_wide (src : Doc) (t : TSNode) (b : Nat)
    (nn : Doc) (cp ip : TPath) (k : IdentKind) (idN : TSNode)
    (hw : wfN t = true)
    (h1 : namedDescPath t b = some cp)
    (h2 : find_ident_node t cp = some (ip, k))
    (hk : k = .Global ∨ k = .Aggregete)
    (hid : getPath t ip = some idN)
    (hroot : is_renamable t = none) :
    ∃ es, rename src t b nn = .ok es ∧
      ∀ w x, SubT w t → w.kind = k.kind → namedChild0 w = some x →
        nodeText src x = nodeText src idN → (x.span, nn) ∈ es := by
  obtain ⟨ids, hids⟩ :=
    @renameWalk_no_panic src (nodeText src idN) _
      (isWrapKind_kind k) t hw
  have hren : rename src t b nn = .ok (ids.map (fun idn => (idn.span, nn))) := by
    rcases hk with rfl | rfl <;>
      simp [rename, h1, h2, hid, hids]
  refine ⟨_, hren, ?_⟩
  intro w x hsub hwk hwc hwt
  have hne : w ≠ t := by
    intro he
    rw [he] at hwk
    rw [is_renamable_of_kind hwk] at hroot
    cases hroot
  have hstrict : SubTstrict w t := by
    cases hsub with
    | refl => exact absurd rfl hne
    | child hc hsub2 => exact ⟨_, hc, hsub2⟩
  have hxin : x ∈ ids :=
    renameWalk_complete (isWrapKind_kind k) t hw ids hids w x hstrict hwk hwc hwt
  exact List.mem_map.mpr ⟨x, hxin, rfl⟩

/-- C5 (witness): renaming the global `$f` from its definition in the
first function of document C touches every `$f` occurrence, including the
call operand inside the second function. -/
theorem c5_global_rename_program_wide_witness :
    ∃ es, rename docC treeC 10 "h".toList = .ok es ∧
      ∀ w x, SubT w treeC → w.kind = IdentKind.Global.kind →
        namedChild0 w = some x → nodeText docC x = nodeText docC idC1 →
        (x.span, "h".toList) ∈ es :=
  c5_global_rename_program_wide docC treeC 10 "h".toList
    [0, 1, 1] [0, 1, 1] .Global idC1 (by decide) (by decide) (by decide)
    (Or.inl rfl) (by rfl) (by decide)

theorem getPath_subT : ∀ (p : TPath) (t n : TSNode),
    getPath t p = some n → SubT n t := by
  intro p
  induction p with
  | nil => intro t n h; cases h; exact SubT.refl t
  | cons i q ih =>
    intro t n h
    rw [getPath] at h
    cases hc : t.children[i]? with
    | none => rw [hc] at h; cases h
    | some c =>
      rw [hc] at h
      exact SubT.child (List.getElem?_mem hc) (ih c n h)

theorem getPath_split (p q : TPath) : ∀ t : TSNode,
    getPath t (p ++ q) = (getPath t p).bind (fun n => getPath n q) := by
  induction p with
  | nil => intro t; rfl
  | cons i p ih =>
    intro t
    simp only [List.cons_append, getPath]
    cases hc : t.children[i]? with
    | none => rfl
    | some c => exact ih c

theorem ffnAux_spec : ∀ (fuel : Nat) (t : TSNode) (p q : TPath),
    ffnAux t fuel p = some q →
    q <+: p ∧ ∃ n, getPath t q = some n ∧ n.kind = "FUNCDEF" := by
  intro fuel
  induction fuel with
  | zero =>
    intro t p q h
    rw [ffnAux] at h
    cases hg : getPath t p with
    | none => rw [hg] at h; cases h
    | some n =>
      rw [hg] at h
      dsimp only at h
      by_cases hk : (n.kind == "FUNCDEF") = true
      · rw [if_pos hk] at h
        cases h
        exact ⟨List.prefix_refl _, n, hg, by simpa using hk⟩
      · rw [if_neg hk] at h; cases h
  | succ fuel ih =>
    intro t p q h
    rw [ffnAux] at h
    cases hg : getPath t p with
    | none =>
      rw [hg] at h
      dsimp only at h
      by_cases hp : p = []
      · rw [if_pos hp] at h; cases h
      · rw [if_neg hp] at h
        obtain ⟨hpre, hrest⟩ := ih t p.dropLast q h
        exact ⟨hpre.trans (List.dropLast_prefix p), hrest⟩
    | some n =>
      rw [hg] at h
      dsimp only at h
      by_cases hk : (n.kind == "FUNCDEF") = true
      · rw [if_pos hk] at h
        cases h
        exact ⟨List.prefix_refl _, n, hg, by simpa using hk⟩
      · rw [if_neg hk] at h
        by_cases hp : p = []
        · rw [if_pos hp] at h; cases h
        · rw [if_neg hp] at h
          obtain ⟨hpre, hrest⟩ := ih t p.dropLast q h
          exact ⟨hpre.trans (List.dropLast_prefix p), hrest⟩

theorem find_funcdef_spec {t : TSNode} {p q : TPath}
    (h : find_funcdef_from_child_node t p = some q) :
    q <+: p ∧ ∃ n, getPath t q = some n ∧ n.kind = "FUNCDEF" :=
  ffnAux_spec p.length t p q h

/-- Children of a well-formed wrapping node are leaves. -/
theorem wrap_child_leaf {w c : TSNode} (hw : wfN w = true)
    (hk : isWrapKind w.kind = true) (hc : c ∈ w.children) :
    c.children = [] := by
  have hcw := wfN_child hw hc
  by_cases hnm : c.isNamed
  · obtain ⟨u, -, hu1, -, -, -, hflt, -⟩ := namedChild0_of_wrap hw hk
    have hcin : c ∈ w.children.filter (fun x => x.isNamed) := by
      simp [List.mem_filter, hc, hnm]
    rw [hflt] at hcin
    simp only [List.mem_singleton] at hcin
    subst hcin
    exact (wfN_parts hcw).2.2.2.2.1 hu1
  · exact (wfN_parts hcw).2.2.2.1 (by simpa using hnm)

/-- A wrapping node whose span meets a non-leaf, non-wrapping boundary
node lies inside the boundary subtree. -/
theorem wrapper_inter_in_boundary {t fd x : TSNode} (hw : wfN t = true)
    (hxt : SubT x t) (hfdt : SubT fd t)
    (hxwrap : isWrapKind x.kind = true)
    (hfdleaf : fd.children ≠ [])
    (hfdwrap : isWrapKind fd.kind = false)
    (hint : ¬ spanDisj x.span fd.span) :
    SubT x fd := by
  rcases subT_trichotomy hxt hw fd hfdt with h | h | h
  · exact h
  · -- fd inside the wrapper: impossible
    exfalso
    have hxw : wfN x = true := wfN_subT hw hxt
    rcases subT_wrap hxw hxwrap h with rfl | hmem
    · rw [hfdwrap] at hxwrap; cases hxwrap
    · exact hfdleaf (wrap_child_leaf hxw hxwrap hmem)
  · exact absurd h hint

theorem is_renamable_kind_eq {w : TSNode} {k : IdentKind}
    (h : is_renamable w = some k) : w.kind = k.kind := by
  unfold is_renamable at h
  split at h <;> first
    | (cases h; simp_all [IdentKind.kind])
    | cases h

/-- The classified identifier node has kind IDENT in a well-formed
tree. -/
theorem classified_ident_kind {t : TSNode} {cp ip : TPath} {k : IdentKind}
    {idN : TSNode} (hw : wfN t = true)
    (h2 : find_ident_node t cp = some (ip, k))
    (hid : getPath t ip = some idN) :
    idN.kind = "IDENT" := by
  obtain ⟨w, idN2, hwp, hid2, hren, hmem, hnc⟩ := find_ident_node_spec h2
  rw [hid] at hid2
  cases hid2
  have hwsub : SubT w t := getPath_subT _ _ _ hwp
  have hww : wfN w = true := wfN_subT hw hwsub
  have hwk : isWrapKind w.kind = true := by
    rw [is_renamable_kind_eq hren]; exact isWrapKind_kind k
  obtain ⟨u, hu, hu1, -, hu3, hu4, hflt, -⟩ := namedChild0_of_wrap hww hwk
  rcases hnc with hnc | hkind
  · rw [hnc] at hu
    cases hu
    exact hu1
  · exact hkind

/-- The resolved boundary node of a Local/Label occurrence is not a leaf:
the identifier the walk started from lies strictly below it. -/
theorem boundary_children_ne {t : TSNode} {ip fp : TPath} {idN fd : TSNode}
    (hid : getPath t ip = some idN)
    (hfp : find_funcdef_from_child_node t ip = some fp)
    (hfd : getPath t fp = some fd)
    (hkind : idN.kind = "IDENT") :
    fd.children ≠ [] ∧ fd.kind = "FUNCDEF" := by
  obtain ⟨hpre, n, hn, hnk⟩ := find_funcdef_spec hfp
  rw [hfd] at hn
  cases hn
  refine ⟨?_, hnk⟩
  obtain ⟨r, hr⟩ := hpre
  have hne : fp ≠ ip := by
    intro he
    rw [he, hid] at hfd
    cases hfd
    rw [hkind] at hnk
    exact absurd hnk (by decide)
  have hrne : r ≠ [] := by
    intro he
    rw [he, List.append_nil] at hr
    exact hne hr
  cases r with
  | nil => exact absurd rfl hrne
  | cons j r2 =>
    rw [← hr, getPath_split, hfd] at hid
    dsimp only [Option.bind] at hid
    rw [getPath] at hid
    cases hc : fd.children[j]? with
    | none => rw [hc] at hid; cases hid
    | some c =>
      intro hemp
      rw [hemp] at hc
      simp at hc

theorem interB_not_disj {r s : Span} (h : interB r s = true) :
    ¬ spanDisj s r := by
  simp only [interB, Bool.and_eq_true, decide_eq_true_eq] at h
  unfold spanDisj
  omega

theorem mem_refSpansOf_refResult {ns : List TSNode} {sp : Span} :
    sp ∈ refSpansOf (.ok (refResult ns)) ↔ sp ∈ ns.map TSNode.span := by
  have hm := mem_uniqueFirst (ns.map TSNode.span) sp
  unfold refResult captureSpans
  cases hu : uniqueFirst (ns.map TSNode.span) with
  | nil =>
    rw [hu] at hm
    simp only [refSpansOf]
    simp only [List.not_mem_nil, false_iff] at hm ⊢
    exact fun hx => hm hx
  | cons a l =>
    rw [hu] at hm
    simpa [refSpansOf] using hm

theorem references_local_eq {src : Doc} {t : TSNode} {b : Nat}
    {cp ip : TPath} {k : IdentKind} {idN fd : TSNode} {fp : TPath}
    (h1 : namedDescPath t b = some cp)
    (h2 : find_ident_node t cp = some (ip, k))
    (hk : k = .Local ∨ k = .Label)
    (hid : getPath t ip = some idN)
    (hfp : find_funcdef_from_child_node t ip = some fp)
    (hfd : getPath t fp = some fd) :
    references src t b = .ok (refResult (queryCaptures
      (refMatchAt src k (nodeText src idN) (some fd.span)) t)) := by
  rcases hk with rfl | rfl <;> simp [references, h1, h2, hid, hfp, hfd]

/-- C4: for a Local or Label occurrence inside a function definition,
every location find-references returns lies within that function
definition's byte range, and the span of any node whose range is disjoint
from that function definition (an identically named local in a different
function included) is never among the results. -/
theorem c4_references_scope_containment (src : Doc) (t : TSNode) (b : Nat)
    (cp ip fp : TPath) (k : IdentKind) (idN fd : TSNode)
    (hw : wfN t = true)
    (h1 : namedDescPath t b = some cp)
    (h2 : find_ident_node t cp = some (ip, k))
    (hk : k = .Local ∨ k = .Label)
    (hid : getPath t ip = some idN)
    (hfp : find_funcdef_from_child_node t ip = some fp)
    (hfd : getPath t fp = some fd) :
    (∀ sp ∈ refSpansOf (references src t b), spanIn sp fd.span = true) ∧
    (∀ sp ∈ refSpansOf (references src t b), ¬ spanDisj sp fd.span) := by
  have hident := classified_ident_kind hw h2 hid
  obtain ⟨hfdne, hfdkind⟩ := boundary_children_ne hid hfp hfd hident
  have hmain : ∀ sp ∈ refSpansOf (references src t b),
      spanIn sp fd.span = true ∧ sp.start < sp.stop := by
    intro sp hsp
    rw [references_local_eq h1 h2 hk hid hfp hfd] at hsp
    rw [mem_refSpansOf_refResult] at hsp
    obtain ⟨x, hx, rfl⟩ := List.mem_map.mp hsp
    obtain ⟨n, hsub, hxn⟩ := (mem_queryCaptures _ _ _).mp hx
    obtain ⟨rfl, hnm, hkind, idc, -, -, hi1, -⟩ := mem_refMatchAt.mp hxn
    have hfdsub : SubT fd t := getPath_subT _ _ _ hfd
    have hxin : SubT x fd := by
      refine wrapper_inter_in_boundary hw hsub hfdsub ?_ hfdne ?_ ?_
      · rw [hkind]; exact isWrapKind_kind k
      · rw [hfdkind]; rfl
      · exact interB_not_disj hi1
    have hxw : wfN x = true := wfN_subT hw hsub
    exact ⟨SubT.span_in (wfN_subT hw hfdsub) hxin, (wfN_parts hxw).1⟩
  refine ⟨fun sp hsp => (hmain sp hsp).1, fun sp hsp hdisj => ?_⟩
  obtain ⟨hin, hwid⟩ := hmain sp hsp
  simp only [spanIn, Bool.and_eq_true, decide_eq_true_eq] at hin
  unfold spanDisj at hdisj
  omega

/-- C4 (witness): references for the local of the first function of
document B stay within that function's byte range and meet it. -/
theorem c4_references_scope_containment_witness :
    (∀ sp ∈ refSpansOf (references docB treeB 19),
      spanIn sp fdB1.span = true) ∧
    (∀ sp ∈ refSpansOf (references docB treeB 19),
      ¬ spanDisj sp fdB1.span) :=
  c4_references_scope_containment docB treeB 19 [0, 4, 1, 0, 1]
    [0, 4, 1, 0, 1] [0] .Local idB1 fdB1 (by decide) (by decide) (by decide)
    (Or.inl rfl) (by rfl) (by decide) (by rfl)

theorem mem_emitIf {src nm : Doc} {w : Option Span} {a x : TSNode} :
    x ∈ emitIf src nm w a ↔
      x = a ∧ ∃ idc, nameFieldIdent a = some idc ∧
        nodeText src idc = nm ∧ interO w a.span = true ∧
        interO w idc.span = true := by
  unfold emitIf
  cases hn : nameFieldIdent a with
  | none => simp
  | some idc =>
    dsimp only
    by_cases hc : (nodeText src idc == nm && interO w a.span &&
        interO w idc.span) = true
    · rw [if_pos hc]
      simp only [Bool.and_eq_true, beq_iff_eq] at hc
      simp only [List.mem_cons, List.not_mem_nil, or_false]
      constructor
      · rintro (rfl | rfl) <;>
          exact ⟨rfl, idc, rfl, hc.1.1, hc.1.2, hc.2⟩
      · rintro ⟨rfl, -⟩; exact Or.inl rfl
    · rw [if_neg hc]
      simp only [List.not_mem_nil, false_iff]
      rintro ⟨rfl, idc2, hidc2, ht, h1, h2⟩
      injection hidc2 with he
      subst he
      exact hc (by simp [ht, h1, h2])



theorem defMatchAt_sound {src : Doc} {k : IdentKind} {nm : Doc}
    {w : Option Span} {n x : TSNode}
    (hx : x ∈ defMatchAt src k nm w n) :
    SubT x n ∧ x.kind = k.kind ∧ x.isNamed = true ∧ ∃ idc,
      nameFieldIdent x = some idc ∧ nodeText src idc = nm ∧
      interO w x.span = true ∧ interO w idc.span = true := by
  have hemit : ∀ (a : TSNode), x ∈ emitIf src nm w a →
      SubT a n → a.kind = k.kind → a.isNamed = true →
      SubT x n ∧ x.kind = k.kind ∧ x.isNamed = true ∧ ∃ idc,
        nameFieldIdent x = some idc ∧ nodeText src idc = nm ∧
        interO w x.span = true ∧ interO w idc.span = true := by
    intro a hmem has hak han
    obtain ⟨rfl, idc, hidc, ht, hi1, hi2⟩ := mem_emitIf.mp hmem
    exact ⟨has, hak, han, idc, hidc, ht, hi1, hi2⟩
  cases k with
  | Local =>
    unfold defMatchAt instAssignMatch funcdefParamMatch at hx
    rcases List.mem_append.mp hx with h | h
    · by_cases hc : (n.isNamed && n.kind == "INST") = true
      · rw [if_pos hc] at h
        cases hf : n.children.find? (fun c =>
            c.fld == some "assignment" && c.kind == "LOCAL" && c.isNamed) with
        | none => rw [hf] at h; cases h
        | some lo =>
          rw [hf] at h
          have hp := List.find?_some hf
          simp only [Bool.and_eq_true, beq_iff_eq] at hp
          exact hemit lo h
            (SubT.child (List.mem_of_find?_eq_some hf) (SubT.refl lo))
            hp.1.2 hp.2
      · rw [if_neg hc] at h; cases h
    · by_cases hc : (n.isNamed && n.kind == "FUNCDEF") = true
      · rw [if_pos hc] at h
        cases hf : n.children.find? (fun c =>
            c.fld == some "params" && c.kind == "FUNCDEF_PARAMS" && c.isNamed) with
        | none => rw [hf] at h; cases h
        | some ps =>
          rw [hf] at h
          dsimp only at h
          obtain ⟨q, hq, hmem⟩ := List.mem_flatMap.mp h
          cases hql : q.children.find? (fun c =>
              c.fld == some "name" && c.kind == "LOCAL" && c.isNamed) with
          | none => rw [hql] at hmem; cases hmem
          | some lo =>
            rw [hql] at hmem
            have hp := List.find?_some hql
            simp only [Bool.and_eq_true, beq_iff_eq] at hp
            exact hemit lo hmem
              (SubT.child (List.mem_of_find?_eq_some hf)
                (SubT.child (List.mem_filter.mp hq).1
                  (SubT.child (List.mem_of_find?_eq_some hql)
                    (SubT.refl lo))))
              hp.1.2 hp.2
      · rw [if_neg hc] at h; cases h
  | Label =>
    unfold defMatchAt blockLabelMatch at hx
    by_cases hc : (n.isNamed && n.kind == "BLOCK") = true
    · rw [if_pos hc] at hx
      cases hf : n.children.find? (fun c =>
          c.fld == some "label" && c.kind == "LABEL" && c.isNamed) with
      | none => rw [hf] at hx; cases hx
      | some lb =>
        rw [hf] at hx
        have hp := List.find?_some hf
        simp only [Bool.and_eq_true, beq_iff_eq] at hp
        exact hemit lb hx
          (SubT.child (List.mem_of_find?_eq_some hf) (SubT.refl lb))
          hp.1.2 hp.2
    · rw [if_neg hc] at hx; cases hx
  | Global =>
    unfold defMatchAt globalDefMatch at hx
    by_cases hc : (n.isNamed && (n.kind == "FUNCDEF" || n.kind == "DATADEF")) = true
    · rw [if_pos hc] at hx
      cases hf : n.children.find? (fun c =>
          c.fld == some "name" && c.kind == "GLOBAL" && c.isNamed) with
      | none => rw [hf] at hx; cases hx
      | some g =>
        rw [hf] at hx
        have hp := List.find?_some hf
        simp only [Bool.and_eq_true, beq_iff_eq] at hp
        exact hemit g hx
          (SubT.child (List.mem_of_find?_eq_some hf) (SubT.refl g))
          hp.1.2 hp.2
    · rw [if_neg hc] at hx; cases hx
  | Aggregete =>
    unfold defMatchAt typedefAggMatch at hx
    by_cases hc : (n.isNamed && n.kind == "TYPEDEF") = true
    · rw [if_pos hc] at hx
      obtain ⟨a, ha, hmem⟩ := List.mem_flatMap.mp hx
      have hp := List.mem_filter.mp ha
      simp only [Bool.and_eq_true, beq_iff_eq] at hp
      exact hemit a hmem
        (SubT.child (List.mem_filter.mp ha).1 (SubT.refl a))
        hp.2.2 hp.2.1
    · rw [if_neg hc] at hx; cases hx

theorem defMatchAt_strengthen {src : Doc} {k : IdentKind} {nm : Doc}
    {r : Span} {n x : TSNode}
    (hx : x ∈ defMatchAt src k nm none n)
    (h1 : interB r x.span = true)
    (h2 : ∀ idc, nameFieldIdent x = some idc → interB r idc.span = true) :
    x ∈ defMatchAt src k nm (some r) n := by
  have hemit : ∀ (a : TSNode), x ∈ emitIf src nm none a →
      x ∈ emitIf src nm (some r) a := by
    intro a hmem
    obtain ⟨rfl, idc, hidc, ht, -, -⟩ := mem_emitIf.mp hmem
    exact mem_emitIf.mpr ⟨rfl, idc, hidc, ht, h1, h2 idc hidc⟩
  cases k with
  | Local =>
    unfold defMatchAt instAssignMatch funcdefParamMatch at hx ⊢
    rcases List.mem_append.mp hx with h | h <;>
      refine List.mem_append.mpr ?_
    · left
      by_cases hc : (n.isNamed && n.kind == "INST") = true
      · rw [if_pos hc] at h ⊢
        cases hf : n.children.find? (fun c =>
            c.fld == some "assignment" && c.kind == "LOCAL" && c.isNamed) with
        | none => rw [hf] at h; cases h
        | some lo =>
          rw [hf] at h
          dsimp only
          exact hemit lo h
      · rw [if_neg hc] at h; cases h
    · right
      by_cases hc : (n.isNamed && n.kind == "FUNCDEF") = true
      · rw [if_pos hc] at h ⊢
        cases hf : n.children.find? (fun c =>
            c.fld == some "params" && c.kind == "FUNCDEF_PARAMS" && c.isNamed) with
        | none => rw [hf] at h; cases h
        | some ps =>
          rw [hf] at h
          dsimp only at h ⊢
          obtain ⟨q, hq, hmem⟩ := List.mem_flatMap.mp h
          refine List.mem_flatMap.mpr ⟨q, hq, ?_⟩
          cases hql : q.children.find? (fun c =>
              c.fld == some "name" && c.kind == "LOCAL" && c.isNamed) with
          | none => rw [hql] at hmem; cases hmem
          | some lo =>
            rw [hql] at hmem
            dsimp only
            exact hemit lo hmem
      · rw [if_neg hc] at h; cases h
  | Label =>
    unfold defMatchAt blockLabelMatch at hx ⊢
    by_cases hc : (n.isNamed && n.kind == "BLOCK") = true
    · rw [if_pos hc] at hx ⊢
      cases hf : n.children.find? (fun c =>
          c.fld == some "label" && c.kind == "LABEL" && c.isNamed) with
      | none => rw [hf] at hx; cases hx
      | some lb =>
        rw [hf] at hx
        dsimp only
        exact hemit lb hx
    · rw [if_neg hc] at hx; cases hx
  | Global =>
    unfold defMatchAt globalDefMatch at hx ⊢
    by_cases hc : (n.isNamed && (n.kind == "FUNCDEF" || n.kind == "DATADEF")) = true
    · rw [if_pos hc] at hx ⊢
      cases hf : n.children.find? (fun c =>
          c.fld == some "name" && c.kind == "GLOBAL" && c.isNamed) with
      | none => rw [hf] at hx; cases hx
      | some g =>
        rw [hf] at hx
        dsimp only
        exact hemit g hx
    · rw [if_neg hc] at hx; cases hx
  | Aggregete =>
    unfold defMatchAt typedefAggMatch at hx ⊢
    by_cases hc : (n.isNamed && n.kind == "TYPEDEF") = true
    · rw [if_pos hc] at hx ⊢
      obtain ⟨a, ha, hmem⟩ := List.mem_flatMap.mp hx
      exact List.mem_flatMap.mpr ⟨a, ha, hemit a hmem⟩
    · rw [if_neg hc] at hx; cases hx

/-- A well-formed wrapping node has a child (its identifier). -/
theorem SubT.trans {a b c : TSNode} (h1 : SubT a b) (h2 : SubT b c) :
    SubT a c := by
  induction h2 with
  | refl => exact h1
  | child hc _ ih => exact SubT.child hc ih

theorem wrap_nonleaf {w : TSNode} (hw : wfN w = true)
    (hk : isWrapKind w.kind = true) : w.children ≠ [] := by
  obtain ⟨u, -, -, -, -, hmem, -, -⟩ := namedChild0_of_wrap hw hk
  intro he
  rw [he] at hmem
  cases hmem

/-- Two well-formed wrapping nodes of a tree sharing a start byte are the
same node. -/
theorem wrap_same_start {t x1 x2 : TSNode} (hw : wfN t = true)
    (h1 : SubT x1 t) (h2 : SubT x2 t)
    (k1 : isWrapKind x1.kind = true) (k2 : isWrapKind x2.kind = true)
    (hs : x1.span.start = x2.span.start) : x1 = x2 := by
  have hw1 : wfN x1 = true := wfN_subT hw h1
  have hw2 : wfN x2 = true := wfN_subT hw h2
  rcases subT_trichotomy h1 hw x2 h2 with h | h | h
  · rcases subT_wrap hw2 k2 h with rfl | hmem
    · rfl
    · exact absurd (wrap_child_leaf hw2 k2 hmem) (wrap_nonleaf hw1 k1)
  · rcases subT_wrap hw1 k1 h with h' | hmem
    · exact h'.symm
    · exact absurd (wrap_child_leaf hw1 k1 hmem) (wrap_nonleaf hw2 k2)
  · exfalso
    have hwd1 := (wfN_parts hw1).1
    have hwd2 := (wfN_parts hw2).1
    unfold spanDisj at h
    omega

theorem queryCaptures_sorted (f : TSNode → List TSNode) (t : TSNode) :
    (queryCaptures f t).Pairwise
      (fun a b => a.span.start ≤ b.span.start) := by
  haveI : IsTotal TSNode (fun a b => a.span.start ≤ b.span.start) :=
    ⟨fun a b => Nat.le_total _ _⟩
  haveI : IsTrans TSNode (fun a b => a.span.start ≤ b.span.start) :=
    ⟨fun a b c => Nat.le_trans⟩
  exact List.sorted_insertionSort _ _

theorem mem_captureSpans {ns : List TSNode} {sp : Span} :
    sp ∈ captureSpans ns ↔ sp ∈ ns.map TSNode.span :=
  mem_uniqueFirst _ _

theorem captureSpans_nodup (ns : List TSNode) : (captureSpans ns).Nodup :=
  uniqueFirst_nodup _

theorem captureSpans_sorted (f : TSNode → List TSNode) (t : TSNode) :
    (captureSpans (queryCaptures f t)).Pairwise
      (fun a b => a.start ≤ b.start) := by
  refine uniqueFirst_pairwise _ _ ?_
  rw [List.pairwise_map]
  exact queryCaptures_sorted f t

theorem goto_local_eq {src : Doc} {t : TSNode} {b : Nat}
    {cp ip : TPath} {k : IdentKind} {idN fd : TSNode} {fp : TPath}
    (h1 : namedDescPath t b = some cp)
    (h2 : find_ident_node t cp = some (ip, k))
    (hk : k = .Local ∨ k = .Label)
    (hid : getPath t ip = some idN)
    (hfp : find_funcdef_from_child_node t ip = some fp)
    (hfd : getPath t fp = some fd) :
    goto_definition src t b = .ok (gotoResult (queryCaptures
      (defMatchAt src k (nodeText src idN)
        (some ⟨fd.span.start, idN.span.stop⟩)) t)) := by
  rcases hk with rfl | rfl <;>
    simp [goto_definition, h1, h2, hid, hfp, hfd]

theorem goto_global_eq {src : Doc} {t : TSNode} {b : Nat}
    {cp ip : TPath} {k : IdentKind} {idN : TSNode}
    (h1 : namedDescPath t b = some cp)
    (h2 : find_ident_node t cp = some (ip, k))
    (hk : k = .Global ∨ k = .Aggregete)
    (hid : getPath t ip = some idN) :
    goto_definition src t b = .ok (gotoResult (queryCaptures
      (defMatchAt src k (nodeText src idN) none) t)) := by
  rcases hk with rfl | rfl <;>
    simp [goto_definition, h1, h2, hid]

/-- C7: definition lookup answers with an absent result on zero matches, a
single scalar location on exactly one, and the full deduplicated match
set on more than one; the returned set is exactly the deduplicated span
set of the pattern search, without duplicates and in ascending source
position. -/
theorem c7_goto_result_shape (src : Doc) (t : TSNode) (b : Nat)
    (cp ip : TPath) (k : IdentKind) (idN : TSNode) (wnd : Option Span)
    (hw : wfN t = true)
    (h1 : namedDescPath t b = some cp)
    (h2 : find_ident_node t cp = some (ip, k))
    (hid : getPath t ip = some idN)
    (hcase : ((k = .Local ∨ k = .Label) ∧ ∃ fp fd,
        find_funcdef_from_child_node t ip = some fp ∧
        getPath t fp = some fd ∧
        wnd = some ⟨fd.span.start, idN.span.stop⟩) ∨
      ((k = .Global ∨ k = .Aggregete) ∧ wnd = none)) :
    goto_definition src t b = .ok (gotoResult
      (queryCaptures (defMatchAt src k (nodeText src idN) wnd) t)) ∧
    (captureSpans (queryCaptures (defMatchAt src k (nodeText src idN) wnd) t)
        = [] →
      gotoResult (queryCaptures (defMatchAt src k (nodeText src idN) wnd) t)
        = none) ∧
    (∀ s, captureSpans
        (queryCaptures (defMatchAt src k (nodeText src idN) wnd) t) = [s] →
      gotoResult (queryCaptures (defMatchAt src k (nodeText src idN) wnd) t)
        = some (.Scalar s)) ∧
    (2 ≤ (captureSpans
        (queryCaptures (defMatchAt src k (nodeText src idN) wnd) t)).length →
      gotoResult (queryCaptures (defMatchAt src k (nodeText src idN) wnd) t)
        = some (.Array (captureSpans
          (queryCaptures (defMatchAt src k (nodeText src idN) wnd) t)))) ∧
    (captureSpans
      (queryCaptures (defMatchAt src k (nodeText src idN) wnd) t)).Nodup ∧
    (∀ sp, sp ∈ captureSpans
        (queryCaptures (defMatchAt src k (nodeText src idN) wnd) t) ↔
      sp ∈ (queryCaptures (defMatchAt src k (nodeText src idN) wnd) t).map
        TSNode.span) ∧
    (captureSpans
      (queryCaptures (defMatchAt src k (nodeText src idN) wnd) t)).Pairwise
        (fun a b => a.start < b.start) := by
  refine ⟨?_, ?_, ?_, ?_, captureSpans_nodup _, fun sp => mem_captureSpans,
    ?_⟩
  · rcases hcase with ⟨hk, fp, fd, hfp, hfd, rfl⟩ | ⟨hk, rfl⟩
    · exact goto_local_eq h1 h2 hk hid hfp hfd
    · exact goto_global_eq h1 h2 hk hid
  · intro h; unfold gotoResult; rw [h]
  · intro s h; unfold gotoResult; rw [h]
  · intro h
    unfold gotoResult
    rcases hds : captureSpans
        (queryCaptures (defMatchAt src k (nodeText src idN) wnd) t) with
      _ | ⟨a, _ | ⟨c, tl⟩⟩
    · rw [hds] at h; simp at h
    · rw [hds] at h; simp at h
    · rfl
  · -- strictly ascending: combine sortedness, deduplication, and the
    -- injectivity of start bytes over matched wrapping nodes
    have hsorted := captureSpans_sorted
      (defMatchAt src k (nodeText src idN) wnd) t
    have hnodup := captureSpans_nodup
      (queryCaptures (defMatchAt src k (nodeText src idN) wnd) t)
    have hpair := hsorted.and (List.Pairwise.imp (fun h => h) hnodup)
    refine List.Pairwise.imp_of_mem ?_ hpair
    intro a b ha hb hab
    rcases Nat.lt_or_ge a.start b.start with hlt | hge
    · exact hlt
    · exfalso
      have heq : a.start = b.start := Nat.le_antisymm hab.1 hge
      obtain ⟨xa, hxa, rfl⟩ := List.mem_map.mp (mem_captureSpans.mp ha)
      obtain ⟨xb, hxb, rfl⟩ := List.mem_map.mp (mem_captureSpans.mp hb)
      obtain ⟨na, hna, hxa2⟩ := (mem_queryCaptures _ _ _).mp hxa
      obtain ⟨nb, hnb, hxb2⟩ := (mem_queryCaptures _ _ _).mp hxb
      obtain ⟨hsa, hka, -⟩ := defMatchAt_sound hxa2
      obtain ⟨hsb, hkb, -⟩ := defMatchAt_sound hxb2
      have hxat : SubT xa t := SubT.trans hsa hna
      have hxbt : SubT xb t := SubT.trans hsb hnb
      have : xa = xb := by
        refine wrap_same_start hw hxat hxbt ?_ ?_ heq
        · rw [hka]; exact isWrapKind_kind k
        · rw [hkb]; exact isWrapKind_kind k
      rw [this] at hab
      exact hab.2 rfl

/-- C7 (witness): the shape property instantiated at the assignment
identifier of document A, where the search returns exactly one
definition site. -/
theorem c7_goto_result_shape_witness :
    goto_definition docA treeA 26 = .ok (gotoResult
      (queryCaptures (defMatchAt docA .Local (nodeText docA idA2)
        (some ⟨0, 27⟩)) treeA)) ∧
    (captureSpans (queryCaptures (defMatchAt docA .Local
        (nodeText docA idA2) (some ⟨0, 27⟩)) treeA) = [] →
      gotoResult (queryCaptures (defMatchAt docA .Local
        (nodeText docA idA2) (some ⟨0, 27⟩)) treeA) = none) ∧
    (∀ s, captureSpans (queryCaptures (defMatchAt docA .Local
        (nodeText docA idA2) (some ⟨0, 27⟩)) treeA) = [s] →
      gotoResult (queryCaptures (defMatchAt docA .Local
        (nodeText docA idA2) (some ⟨0, 27⟩)) treeA) = some (.Scalar s)) ∧
    (2 ≤ (captureSpans (queryCaptures (defMatchAt docA .Local
        (nodeText docA idA2) (some ⟨0, 27⟩)) treeA)).length →
      gotoResult (queryCaptures (defMatchAt docA .Local
        (nodeText docA idA2) (some ⟨0, 27⟩)) treeA)
        = some (.Array (captureSpans (queryCaptures (defMatchAt docA .Local
          (nodeText docA idA2) (some ⟨0, 27⟩)) treeA)))) ∧
    (captureSpans (queryCaptures (defMatchAt docA .Local
      (nodeText docA idA2) (some ⟨0, 27⟩)) treeA)).Nodup ∧
    (∀ sp, sp ∈ captureSpans (queryCaptures (defMatchAt docA .Local
        (nodeText docA idA2) (some ⟨0, 27⟩)) treeA) ↔
      sp ∈ (queryCaptures (defMatchAt docA .Local (nodeText docA idA2)
        (some ⟨0, 27⟩)) treeA).map TSNode.span) ∧
    (captureSpans (queryCaptures (defMatchAt docA .Local
      (nodeText docA idA2) (some ⟨0, 27⟩)) treeA)).Pairwise
        (fun a b => a.start < b.start) :=
  c7_goto_result_shape docA treeA 26 [0, 4, 2, 0, 1] [0, 4, 2, 0, 1]
    .Local idA2 (some ⟨0, 27⟩) (by decide) (by decide) (by decide) (by rfl)
    (Or.inl ⟨Or.inl rfl, [0], fdA, by decide, by rfl, by rfl⟩)

/-- The classified identifier lies inside its resolved boundary. -/
theorem boundary_contains_ident {t : TSNode} {ip fp : TPath}
    {idN fd : TSNode} (hid : getPath t ip = some idN)
    (hfp : find_funcdef_from_child_node t ip = some fp)
    (hfd : getPath t fp = some fd) : SubT idN fd := by
  obtain ⟨hpre, n, hn, -⟩ := find_funcdef_spec hfp
  rw [hfd] at hn
  cases hn
  obtain ⟨r, hr⟩ := hpre
  rw [← hr, getPath_split, hfd] at hid
  dsimp only [Option.bind] at hid
  exact getPath_subT _ _ _ hid

theorem gotoSpansOf_gotoResult (ns : List TSNode) :
    gotoSpansOf (.ok (gotoResult ns)) = captureSpans ns := by
  unfold gotoResult
  rcases h : captureSpans ns with _ | ⟨a, _ | ⟨c, tl⟩⟩ <;> rfl

/-- C1 (counterexample): at the use of the local in document A, the
definition lies later in the same function: evaluating the definition
patterns over the whole boundary finds it (its wrapper span lies inside
the function definition), yet goto-definition returns an absent result,
because the code restricts the byte range to end at the cursor
identifier. -/
theorem c1_goto_window_cex :
    goto_definition docA treeA 23 = .ok none ∧
    (queryCaptures (defMatchAt docA .Local (nodeText docA idA1)
      (some fdA.span)) treeA).map TSNode.span = [⟨25, 27⟩, ⟨25, 27⟩] ∧
    spanIn ⟨25, 27⟩ fdA.span = true ∧
    idA1.span.stop ≤ 25 := by
  exact ⟨by decide, by rfl, by decide, by decide⟩

/-- C1 (amended): for a Local or Label occurrence with a resolved
boundary, the definition patterns are evaluated over the byte range from
the function definition's start to the end byte of the cursor identifier:
every returned location is a defining wrapper inside the boundary whose
range starts before the cursor identifier ends, and conversely every
defining occurrence whose captured nodes meet that restricted window is
returned; a defining occurrence lying after the cursor identifier is not
returned. -/
theorem c1_goto_definition_window_amended (src : Doc) (t : TSNode)
    (b : Nat) (cp ip fp : TPath) (k : IdentKind) (idN fd : TSNode)
    (hw : wfN t = true)
    (h1 : namedDescPath t b = some cp)
    (h2 : find_ident_node t cp = some (ip, k))
    (hk : k = .Local ∨ k = .Label)
    (hid : getPath t ip = some idN)
    (hfp : find_funcdef_from_child_node t ip = some fp)
    (hfd : getPath t fp = some fd) :
    (∀ sp ∈ gotoSpansOf (goto_definition src t b),
      spanIn sp fd.span = true ∧ sp.start < idN.span.stop) ∧
    (∀ x n, SubT n t →
      x ∈ defMatchAt src k (nodeText src idN) none n →
      interB ⟨fd.span.start, idN.span.stop⟩ x.span = true →
      (∀ idc, nameFieldIdent x = some idc →
        interB ⟨fd.span.start, idN.span.stop⟩ idc.span = true) →
      x.span ∈ gotoSpansOf (goto_definition src t b)) := by
  have hgoto := @goto_local_eq src _ _ _ _ _ _ _ _ h1 h2 hk hid hfp hfd
  have hident := classified_ident_kind hw h2 hid
  obtain ⟨hfdne, hfdkind⟩ := boundary_children_ne hid hfp hfd hident
  constructor
  · intro sp hsp
    rw [hgoto, gotoSpansOf_gotoResult] at hsp
    obtain ⟨x, hx, rfl⟩ := List.mem_map.mp (mem_captureSpans.mp hsp)
    obtain ⟨n, hn, hxn⟩ := (mem_queryCaptures _ _ _).mp hx
    obtain ⟨hsub, hkind, -, idc, -, -, hi1, -⟩ := defMatchAt_sound hxn
    have hxt : SubT x t := SubT.trans hsub hn
    have hfdsub : SubT fd t := getPath_subT _ _ _ hfd
    simp only [interO, interB, Bool.and_eq_true, decide_eq_true_eq] at hi1
    have hxin : SubT x fd := by
      refine wrapper_inter_in_boundary hw hxt hfdsub ?_ hfdne ?_ ?_
      · rw [hkind]; exact isWrapKind_kind k
      · rw [hfdkind]; rfl
      · have hwfd : wfN fd = true := wfN_subT hw hfdsub
        have hidin := SubT.span_in hwfd (boundary_contains_ident hid hfp hfd)
        simp only [spanIn, Bool.and_eq_true, decide_eq_true_eq] at hidin
        unfold spanDisj
        -- x meets the window, which spans from the boundary start to the
        -- identifier end, and the identifier lies inside the boundary
        omega
    refine ⟨SubT.span_in (wfN_subT hw (getPath_subT _ _ _ hfd)) hxin, ?_⟩
    exact hi1.2
  · intro x n hn hx hib hibc
    have hx2 := defMatchAt_strengthen hx hib hibc
    rw [hgoto, gotoSpansOf_gotoResult]
    refine mem_captureSpans.mpr (List.mem_map.mpr ⟨x, ?_, rfl⟩)
    exact (mem_queryCaptures _ _ _).mpr ⟨n, hn, hx2⟩

/-- C1 (amended, witness): at the assignment identifier of document A the
restricted window still contains the definition site, which is returned;
both directions instantiated. -/
theorem c1_goto_definition_window_amended_witness :
    (∀ sp ∈ gotoSpansOf (goto_definition docA treeA 26),
      spanIn sp fdA.span = true ∧ sp.start < idA2.span.stop) ∧
    (∀ x n, SubT n treeA →
      x ∈ defMatchAt docA .Local (nodeText docA idA2) none n →
      interB ⟨fdA.span.start, idA2.span.stop⟩ x.span = true →
      (∀ idc, nameFieldIdent x = some idc →
        interB ⟨fdA.span.start, idA2.span.stop⟩ idc.span = true) →
      x.span ∈ gotoSpansOf (goto_definition docA treeA 26)) :=
  c1_goto_definition_window_amended docA treeA 26 [0, 4, 2, 0, 1]
    [0, 4, 2, 0, 1] [0] .Local idA2 fdA (by decide) (by decide) (by decide)
    (Or.inl rfl) (by rfl) (by decide) (by rfl)

theorem references_global_eq {src : Doc} {t : TSNode} {b : Nat}
    {cp ip : TPath} {k : IdentKind} {idN : TSNode}
    (h1 : namedDescPath t b = some cp)
    (h2 : find_ident_node t cp = some (ip, k))
    (hk : k = .Global ∨ k = .Aggregete)
    (hid : getPath t ip = some idN) :
    references src t b = .ok (refResult (queryCaptures
      (refMatchAt src k (nodeText src idN) none) t)) := by
  rcases hk with rfl | rfl <;> simp [references, h1, h2, hid]

theorem subT_strict_of_ne {a t : TSNode} (h : SubT a t) (hne : a ≠ t) :
    SubTstrict a t := by
  cases h with
  | refl => exact absurd rfl hne
  | child hc hsub => exact ⟨_, hc, hsub⟩

/-- C3 (counterexample): for the local occurrence at byte 23 of document
A, the reference search returns the wrapping nodes' ranges (sigil
included) while the rename planner records the identifier children's
ranges, so the two range sets differ. -/
theorem c3_planner_locator_ranges_cex :
    refSpansOf (references docA treeA 23) = [⟨22, 24⟩, ⟨25, 27⟩] ∧
    planSpans (rename docA treeA 23 "y".toList) =
      .ok [⟨23, 24⟩, ⟨26, 27⟩] ∧
    (⟨22, 24⟩ : Span) ∉ ([⟨23, 24⟩, ⟨26, 27⟩] : List Span) := by
  exact ⟨by decide, by decide, by decide⟩

/-- C3 (amended): for every classified occurrence with a resolved scope
boundary, the wrapping nodes underlying the Rename Planner's edit targets
are exactly the wrapping nodes the Occurrence Locator's reference search
returns; the Locator reports the wrapping nodes' ranges while the Planner
records their identifier children's ranges. -/
theorem c3_planner_locator_agreement_amended (src : Doc) (t : TSNode)
    (b : Nat) (nn : Doc) (cp ip : TPath) (k : IdentKind) (idN bd : TSNode)
    (hw : wfN t = true)
    (h1 : namedDescPath t b = some cp)
    (h2 : find_ident_node t cp = some (ip, k))
    (hid : getPath t ip = some idN)
    (hcase : ((k = .Local ∨ k = .Label) ∧ ∃ fp,
        find_funcdef_from_child_node t ip = some fp ∧
        getPath t fp = some bd) ∨
      ((k = .Global ∨ k = .Aggregete) ∧ bd = t ∧ is_renamable t = none)) :
    ∃ es, rename src t b nn = .ok es ∧
      (∀ sp, sp ∈ refSpansOf (references src t b) ↔
        ∃ w u, SubTstrict w bd ∧ w.kind = k.kind ∧
          namedChild0 w = some u ∧
          nodeText src u = nodeText src idN ∧ sp = w.span) ∧
      (∀ sp, sp ∈ es.map Prod.fst ↔
        ∃ w u, SubTstrict w bd ∧ w.kind = k.kind ∧
          namedChild0 w = some u ∧
          nodeText src u = nodeText src idN ∧ sp = u.span) := by
  have hkd := isWrapKind_kind k
  rcases hcase with ⟨hk, fp, hfp, hbd⟩ | ⟨hk, hbdt, hroot⟩
  · -- Local/Label: the boundary is the enclosing function definition
    have hident := classified_ident_kind hw h2 hid
    obtain ⟨hbdne, hbdkind⟩ := boundary_children_ne hid hfp hbd hident
    have hbdsub : SubT bd t := getPath_subT _ _ _ hbd
    have hwbd : wfN bd = true := wfN_subT hw hbdsub
    obtain ⟨ids, hids⟩ := @renameWalk_no_panic src
      (nodeText src idN) _ hkd bd hwbd
    have hren : rename src t b nn =
        .ok (ids.map (fun idn => (idn.span, nn))) := by
      rcases hk with rfl | rfl <;> simp [rename, h1, h2, hid, hfp, hbd, hids]
    refine ⟨_, hren, ?_, ?_⟩
    · intro sp
      rw [references_local_eq h1 h2 hk hid hfp hbd,
        mem_refSpansOf_refResult]
      constructor
      · intro hsp
        obtain ⟨x, hx, rfl⟩ := List.mem_map.mp hsp
        obtain ⟨n, hn, hxn⟩ := (mem_queryCaptures _ _ _).mp hx
        obtain ⟨rfl, hnm, hkind, idc, hidc, ht, hi1, -⟩ :=
          mem_refMatchAt.mp hxn
        have hxin : SubT x bd := by
          refine wrapper_inter_in_boundary hw hn hbdsub ?_ hbdne ?_ ?_
          · rw [hkind]; exact hkd
          · rw [hbdkind]; rfl
          · exact interB_not_disj hi1
        have hxne : x ≠ bd := by
          intro he
          rw [he, hbdkind] at hkind
          cases k <;> simp [IdentKind.kind] at hkind
        have hxw : wfN x = true := wfN_subT hw hn
        obtain ⟨u, hu, -, -, -, -, -, hnfi⟩ := namedChild0_of_wrap hxw
          (by rw [hkind]; exact hkd)
        rw [hidc] at hnfi
        cases hnfi
        exact ⟨x, idc, subT_strict_of_ne hxin hxne, hkind, hu, ht, rfl⟩
      · rintro ⟨w, u, hstrict, hwk, hwc, hwt, rfl⟩
        have hwsub : SubT w bd := by
          obtain ⟨c, hc, hsub⟩ := hstrict
          exact SubT.child hc hsub
        have hww : wfN w = true := wfN_subT hwbd hwsub
        obtain ⟨u2, hu2, -, -, -, hmem2, -, hnfi2⟩ :=
          namedChild0_of_wrap hww (by rw [hwk]; exact hkd)
        rw [hwc] at hu2
        cases hu2
        have hwin := SubT.span_in hwbd hwsub
        have huin : spanIn u.span w.span = true :=
          (wfN_parts hww).2.1 u hmem2
        have hwu : wfN u = true := wfN_child hww hmem2
        have hwwid := (wfN_parts hww).1
        have huwid := (wfN_parts hwu).1
        simp only [spanIn, Bool.and_eq_true, decide_eq_true_eq] at hwin huin
        refine List.mem_map.mpr ⟨w, ?_, rfl⟩
        refine (mem_queryCaptures _ _ _).mpr
          ⟨w, SubT.trans hwsub hbdsub, ?_⟩
        refine mem_refMatchAt.mpr ⟨rfl, (wfN_wrap hww
          (by rw [hwk]; exact hkd)).1, hwk, u, hnfi2, hwt, ?_, ?_⟩
        · simp only [interO, interB, Bool.and_eq_true, decide_eq_true_eq]
          omega
        · simp only [interO, interB, Bool.and_eq_true, decide_eq_true_eq]
          omega
    · intro sp
      have hmapeq : (ids.map (fun idn => (idn.span, nn))).map Prod.fst =
          ids.map TSNode.span := by simp
      rw [hmapeq]
      constructor
      · intro hsp
        obtain ⟨x, hx, rfl⟩ := List.mem_map.mp hsp
        obtain ⟨w, hstrict, hwk, hwc, hwt⟩ :=
          renameWalk_sound bd ids hids x hx
        exact ⟨w, x, hstrict, hwk, hwc, hwt, rfl⟩
      · rintro ⟨w, u, hstrict, hwk, hwc, hwt, rfl⟩
        exact List.mem_map.mpr
          ⟨u, renameWalk_complete hkd bd hwbd ids hids w u hstrict hwk
            hwc hwt, rfl⟩
  · -- Global/Aggregate: the boundary is the document root
    replace hbdt := hbdt.symm
    subst hbdt
    obtain ⟨ids, hids⟩ := @renameWalk_no_panic src
      (nodeText src idN) _ hkd t hw
    have hren : rename src t b nn =
        .ok (ids.map (fun idn => (idn.span, nn))) := by
      rcases hk with rfl | rfl <;> simp [rename, h1, h2, hid, hids]
    refine ⟨_, hren, ?_, ?_⟩
    · intro sp
      rw [references_global_eq h1 h2 hk hid, mem_refSpansOf_refResult]
      constructor
      · intro hsp
        obtain ⟨x, hx, rfl⟩ := List.mem_map.mp hsp
        obtain ⟨n, hn, hxn⟩ := (mem_queryCaptures _ _ _).mp hx
        obtain ⟨rfl, hnm, hkind, idc, hidc, ht, -, -⟩ :=
          mem_refMatchAt.mp hxn
        have hxne : x ≠ t := by
          intro he
          rw [he] at hkind
          rw [is_renamable_of_kind hkind] at hroot
          cases hroot
        have hxw : wfN x = true := wfN_subT hw hn
        obtain ⟨u, hu, -, -, -, -, -, hnfi⟩ := namedChild0_of_wrap hxw
          (by rw [hkind]; exact hkd)
        rw [hidc] at hnfi
        cases hnfi
        exact ⟨x, idc, subT_strict_of_ne hn hxne, hkind, hu, ht, rfl⟩
      · rintro ⟨w, u, hstrict, hwk, hwc, hwt, rfl⟩
        have hwsub : SubT w t := by
          obtain ⟨c, hc, hsub⟩ := hstrict
          exact SubT.child hc hsub
        have hww : wfN w = true := wfN_subT hw hwsub
        obtain ⟨u2, hu2, -, -, -, hmem2, -, hnfi2⟩ :=
          namedChild0_of_wrap hww (by rw [hwk]; exact hkd)
        rw [hwc] at hu2
        cases hu2
        refine List.mem_map.mpr ⟨w, ?_, rfl⟩
        refine (mem_queryCaptures _ _ _).mpr ⟨w, hwsub, ?_⟩
        exact mem_refMatchAt.mpr ⟨rfl, (wfN_wrap hww
          (by rw [hwk]; exact hkd)).1, hwk, u, hnfi2, hwt, rfl, rfl⟩
    · intro sp
      have hmapeq : (ids.map (fun idn => (idn.span, nn))).map Prod.fst =
          ids.map TSNode.span := by simp
      rw [hmapeq]
      constructor
      · intro hsp
        obtain ⟨x, hx, rfl⟩ := List.mem_map.mp hsp
        obtain ⟨w, hstrict, hwk, hwc, hwt⟩ :=
          renameWalk_sound t ids hids x hx
        exact ⟨w, x, hstrict, hwk, hwc, hwt, rfl⟩
      · rintro ⟨w, u, hstrict, hwk, hwc, hwt, rfl⟩
        exact List.mem_map.mpr
          ⟨u, renameWalk_complete hkd t hw ids hids w u hstrict hwk
            hwc hwt, rfl⟩

/-- C3 (amended, witness): the agreement instantiated at the local use
occurrence of document A. -/
theorem c3_planner_locator_agreement_amended_witness :
    ∃ es, rename docA treeA 23 "y".toList = .ok es ∧
      (∀ sp, sp ∈ refSpansOf (references docA treeA 23) ↔
        ∃ w u, SubTstrict w fdA ∧ w.kind = IdentKind.Local.kind ∧
          namedChild0 w = some u ∧
          nodeText docA u = nodeText docA idA1 ∧ sp = w.span) ∧
      (∀ sp, sp ∈ es.map Prod.fst ↔
        ∃ w u, SubTstrict w fdA ∧ w.kind = IdentKind.Local.kind ∧
          namedChild0 w = some u ∧
          nodeText docA u = nodeText docA idA1 ∧ sp = u.span) :=
  c3_planner_locator_agreement_amended docA treeA 23 "y".toList
    [0, 4, 1, 1, 1] [0, 4, 1, 1, 1] .Local idA1 fdA (by decide) (by decide)
    (by decide) (by rfl) (Or.inl ⟨Or.inl rfl, [0], by decide, by rfl⟩)

/-! ### Lemmas for the round-trip development -/

theorem cleanPt_nil (p : Nat) : cleanPt [] p := by
  intro sp h; cases h

theorem cleanPt_cons {sp : Span} {es : List Span} {p : Nat}
    (h : cleanPt (sp :: es) p) : cleanPt es p :=
  fun q hq => h q (List.mem_cons_of_mem sp hq)

theorem shiftFOff_ge_acc (m : Nat) :
    ∀ (es : List Span) (off acc p : Nat), acc ≤ shiftFOff m off acc es p := by
  intro es
  induction es with
  | nil => intro off acc p; rw [shiftFOff]; omega
  | cons sp rest ih =>
    intro off acc p
    rw [shiftFOff]
    by_cases h : sp.stop ≤ p
    · rw [if_pos h]
      have := ih sp.stop (acc + (sp.start - off) + m) p
      omega
    · rw [if_neg h]; omega

/-- Monotonicity of the offset translation on clean positions. -/
theorem shiftFOff_mono (m : Nat) (hm : 1 ≤ m) :
    ∀ (es : List Span) (off acc p q : Nat),
      (∀ sp ∈ es, off ≤ sp.start ∧ sp.start < sp.stop) →
      es.Pairwise (fun a b => a.stop ≤ b.start) →
      cleanPt es p → cleanPt es q → off ≤ p → p ≤ q →
      shiftFOff m off acc es p ≤ shiftFOff m off acc es q ∧
      (p < q → shiftFOff m off acc es p < shiftFOff m off acc es q) := by
  intro es
  induction es with
  | nil =>
    intro off acc p q _ _ _ _ hop hpq
    rw [shiftFOff, shiftFOff]
    omega
  | cons sp rest ih =>
    intro off acc p q hb hpw hcp hcq hop hpq
    have hsp := hb sp (List.mem_cons_self sp rest)
    rw [shiftFOff, shiftFOff]
    by_cases h1 : sp.stop ≤ p
    · have h2 : sp.stop ≤ q := le_trans h1 hpq
      rw [if_pos h1, if_pos h2]
      refine ih sp.stop (acc + (sp.start - off) + m) p q ?_ ?_
        (cleanPt_cons hcp) (cleanPt_cons hcq) h1 hpq
      · intro e he
        obtain ⟨h3, h4⟩ := hb e (List.mem_cons_of_mem sp he)
        have := (List.pairwise_cons.mp hpw).1 e he
        exact ⟨this, h4⟩
      · exact (List.pairwise_cons.mp hpw).2
    · rw [if_neg h1]
      have hps : p ≤ sp.start := by
        rcases hcp sp (List.mem_cons_self sp rest) with h | h
        · exact h
        · omega
      by_cases h2 : sp.stop ≤ q
      · rw [if_pos h2]
        have hge := shiftFOff_ge_acc m rest sp.stop
          (acc + (sp.start - off) + m) q
        constructor
        · omega
        · intro hlt; omega
      · rw [if_neg h2]
        omega

/-- The image of an edited span's end is the image of its start plus the
replacement length. -/
theorem shiftFOff_edit_stop (m : Nat) :
    ∀ (es : List Span) (off acc : Nat),
      (∀ sp ∈ es, off ≤ sp.start ∧ sp.start < sp.stop) →
      es.Pairwise (fun a b => a.stop ≤ b.start) →
      ∀ sp ∈ es, shiftFOff m off acc es sp.stop =
        shiftFOff m off acc es sp.start + m := by
  intro es
  induction es with
  | nil => intro off acc _ _ sp hsp; cases hsp
  | cons e rest ih =>
    intro off acc hb hpw sp hsp
    have he := hb e (List.mem_cons_self e rest)
    rcases List.mem_cons.mp hsp with rfl | hmem
    · rw [shiftFOff, shiftFOff]
      rw [if_pos (le_refl sp.stop), if_neg (by omega)]
      cases rest with
      | nil => rw [shiftFOff]; omega
      | cons e2 rest2 =>
        have h2 := hb e2 (List.mem_cons_of_mem sp (List.mem_cons_self e2 rest2))
        have h3 := (List.pairwise_cons.mp hpw).1 e2
          (List.mem_cons_self e2 rest2)
        rw [shiftFOff, if_neg (by omega)]
        omega
    · have hse := (List.pairwise_cons.mp hpw).1 sp hmem
      have hs := hb sp (List.mem_cons_of_mem e hmem)
      rw [shiftFOff, shiftFOff]
      rw [if_pos (by omega), if_pos (by omega)]
      refine ih e.stop (acc + (e.start - off) + m) ?_
        (List.pairwise_cons.mp hpw).2 sp hmem
      intro q hq
      have := (List.pairwise_cons.mp hpw).1 q hq
      exact ⟨this, (hb q (List.mem_cons_of_mem e hq)).2⟩

theorem sliceD_append_left (l1 l2 : Doc) {a b : Nat}
    (h : b ≤ l1.length) : sliceD (l1 ++ l2) ⟨a, b⟩ = sliceD l1 ⟨a, b⟩ := by
  unfold sliceD
  dsimp only
  by_cases hab : a ≤ b
  · rw [List.drop_append_of_le_length (le_trans hab h)]
    rw [List.take_append_of_le_length]
    rw [List.length_drop]
    omega
  · have : b - a = 0 := by omega
    rw [this]
    simp

theorem sliceD_append_right (l1 l2 : Doc) {a b : Nat}
    (h : l1.length ≤ a) :
    sliceD (l1 ++ l2) ⟨a, b⟩ = sliceD l2 ⟨a - l1.length, b - l1.length⟩ := by
  unfold sliceD
  dsimp only
  have hd : (l1 ++ l2).drop a = l2.drop (a - l1.length) := by
    rw [List.drop_append_eq_append_drop, List.drop_eq_nil_of_le h]
    simp
  rw [hd]
  congr 1
  omega

theorem sliceD_take {src : Doc} {a b c : Nat} (h : b ≤ c) :
    sliceD (src.take c) ⟨a, b⟩ = sliceD src ⟨a, b⟩ := by
  unfold sliceD
  dsimp only
  by_cases hab : a ≤ b
  · rw [List.drop_take]
    rw [List.take_take]
    congr 1
    omega
  · have : b - a = 0 := by omega
    rw [this]; simp

theorem slice_splice (src : Doc) (a b : Nat) (h1 : a ≤ b)
    (_h2 : b ≤ src.length) :
    src.take a ++ sliceD src ⟨a, b⟩ ++ src.drop b = src := by
  unfold sliceD
  dsimp only
  have hb : src.drop b = (src.drop a).drop (b - a) := by
    rw [List.drop_drop]
    congr 1
    omega
  rw [hb, List.append_assoc, List.take_append_drop, List.take_append_drop]


theorem sliceD_drop {src : Doc} {c a b : Nat} :
    sliceD (src.drop c) ⟨a, b⟩ = sliceD src ⟨a + c, b + c⟩ := by
  unfold sliceD
  dsimp only
  rw [List.drop_drop]
  congr 1
  · omega
  · congr 1
    omega

theorem applyAscOff_slice_edit (m : Nat) (B : Doc) (hmB : B.length = m) :
    ∀ (es : List Span) (off acc : Nat) (src : Doc),
      (∀ sp ∈ es, off ≤ sp.start ∧ sp.start < sp.stop ∧
        sp.stop ≤ off + src.length) →
      es.Pairwise (fun a b => a.stop ≤ b.start) →
      ∀ sp ∈ es,
        sliceD (applyAscOff off src (es.map (fun q => (q, B))))
          ⟨shiftFOff m off acc es sp.start - acc,
           shiftFOff m off acc es sp.start - acc + m⟩ = B := by
  intro es
  induction es with
  | nil => intro off acc src _ _ sp hsp; cases hsp
  | cons e rest ih =>
    intro off acc src hb hpw sp hsp
    have he := hb e (List.mem_cons_self e rest)
    simp only [List.map_cons]
    rw [applyAscOff]
    have hlen : (src.take (e.start - off)).length = e.start - off := by
      rw [List.length_take]
      omega
    rcases List.mem_cons.mp hsp with heq | hmem
    · subst heq
      rw [shiftFOff, if_neg (by omega)]
      have hF : acc + (sp.start - off) - acc = sp.start - off := by omega
      rw [hF]
      rw [sliceD_append_left (src.take (sp.start - off) ++ B) _ (by
        rw [List.length_append, hlen, hmB])]
      rw [sliceD_append_right (src.take (sp.start - off)) _
        (le_of_eq hlen)]
      rw [hlen]
      have h1 : sp.start - off - (sp.start - off) = 0 := by omega
      have h2 : sp.start - off + m - (sp.start - off) = m := by omega
      rw [h1, h2]
      unfold sliceD
      dsimp only
      rw [Nat.sub_zero, List.drop_zero, ← hmB, List.take_length]
    · have hse := (List.pairwise_cons.mp hpw).1 sp hmem
      have hs := hb sp (List.mem_cons_of_mem e hmem)
      rw [shiftFOff, if_pos (by omega)]
      have hrb : ∀ q ∈ rest, e.stop ≤ q.start ∧ q.start < q.stop ∧
          q.stop ≤ e.stop + (src.drop (e.stop - off)).length := by
        intro q hq
        have h1 := (List.pairwise_cons.mp hpw).1 q hq
        have h2 := hb q (List.mem_cons_of_mem e hq)
        rw [List.length_drop]
        exact ⟨h1, h2.2.1, by omega⟩
      have hX := shiftFOff_ge_acc m rest e.stop
        (acc + (e.start - off) + m) sp.start
      have hIH := ih e.stop (acc + (e.start - off) + m)
        (src.drop (e.stop - off)) hrb (List.pairwise_cons.mp hpw).2 sp hmem
      rw [sliceD_append_right (src.take (e.start - off) ++ B) _ (by
        rw [List.length_append, hlen, hmB]
        omega)]
      have hlen2 : (src.take (e.start - off) ++ B).length =
          e.start - off + m := by
        rw [List.length_append, hlen, hmB]
      rw [hlen2]
      have hf1 : shiftFOff m e.stop (acc + (e.start - off) + m) rest
          sp.start - acc - (e.start - off + m) =
          shiftFOff m e.stop (acc + (e.start - off) + m) rest sp.start -
            (acc + (e.start - off) + m) := by omega
      have hf2 : shiftFOff m e.stop (acc + (e.start - off) + m) rest
          sp.start - acc + m - (e.start - off + m) =
          shiftFOff m e.stop (acc + (e.start - off) + m) rest sp.start -
            (acc + (e.start - off) + m) + m := by omega
      rw [hf1, hf2]
      exact hIH

theorem applyAscOff_slice_clean (m : Nat) (B : Doc) (hmB : B.length = m) :
    ∀ (es : List Span) (off acc : Nat) (src : Doc),
      (∀ sp ∈ es, off ≤ sp.start ∧ sp.start < sp.stop ∧
        sp.stop ≤ off + src.length) →
      es.Pairwise (fun a b => a.stop ≤ b.start) →
      ∀ q : Span, (∀ sp ∈ es, spanDisj q sp) →
        off ≤ q.start → q.start ≤ q.stop → q.stop ≤ off + src.length →
        sliceD (applyAscOff off src (es.map (fun e => (e, B))))
          ⟨shiftFOff m off acc es q.start - acc,
           shiftFOff m off acc es q.stop - acc⟩ =
        sliceD src ⟨q.start - off, q.stop - off⟩ := by
  intro es
  induction es with
  | nil =>
    intro off acc src _ _ q _ h1 h2 h3
    simp only [List.map_nil]
    rw [applyAscOff, shiftFOff, shiftFOff]
    have e1 : acc + (q.start - off) - acc = q.start - off := by omega
    have e2 : acc + (q.stop - off) - acc = q.stop - off := by omega
    rw [e1, e2]
  | cons e rest ih =>
    intro off acc src hb hpw q hdisj h1 h2 h3
    have he := hb e (List.mem_cons_self e rest)
    have hqe : q.stop ≤ e.start ∨ e.stop ≤ q.start :=
      hdisj e (List.mem_cons_self e rest)
    simp only [List.map_cons]
    rw [applyAscOff]
    have hlen : (src.take (e.start - off)).length = e.start - off := by
      rw [List.length_take]
      omega
    rcases hqe with hbefore | hafter
    · -- q lies before the head edit
      rw [shiftFOff, if_neg (by omega), shiftFOff, if_neg (by omega)]
      have e1 : acc + (q.start - off) - acc = q.start - off := by omega
      have e2 : acc + (q.stop - off) - acc = q.stop - off := by omega
      rw [e1, e2]
      rw [sliceD_append_left (src.take (e.start - off) ++ B) _ (by
        rw [List.length_append, hlen, hmB]
        omega)]
      rw [sliceD_append_left (src.take (e.start - off)) _ (by
        rw [hlen]
        omega)]
      exact sliceD_take (by omega)
    · -- q lies after the head edit
      rw [shiftFOff, if_pos (by omega), shiftFOff, if_pos (by omega)]
      have hrb : ∀ p ∈ rest, e.stop ≤ p.start ∧ p.start < p.stop ∧
          p.stop ≤ e.stop + (src.drop (e.stop - off)).length := by
        intro p hp
        have hh1 := (List.pairwise_cons.mp hpw).1 p hp
        have hh2 := hb p (List.mem_cons_of_mem e hp)
        rw [List.length_drop]
        exact ⟨hh1, hh2.2.1, by omega⟩
      have hX1 := shiftFOff_ge_acc m rest e.stop
        (acc + (e.start - off) + m) q.start
      have hX2 := shiftFOff_ge_acc m rest e.stop
        (acc + (e.start - off) + m) q.stop
      have hIH := ih e.stop (acc + (e.start - off) + m)
        (src.drop (e.stop - off)) hrb (List.pairwise_cons.mp hpw).2 q
        (fun p hp => hdisj p (List.mem_cons_of_mem e hp)) hafter h2 (by
          rw [List.length_drop]
          omega)
      rw [sliceD_append_right (src.take (e.start - off) ++ B) _ (by
        rw [List.length_append, hlen, hmB]
        omega)]
      have hlen2 : (src.take (e.start - off) ++ B).length =
          e.start - off + m := by
        rw [List.length_append, hlen, hmB]
      rw [hlen2]
      have hf1 : shiftFOff m e.stop (acc + (e.start - off) + m) rest
          q.start - acc - (e.start - off + m) =
          shiftFOff m e.stop (acc + (e.start - off) + m) rest q.start -
            (acc + (e.start - off) + m) := by omega
      have hf2 : shiftFOff m e.stop (acc + (e.start - off) + m) rest
          q.stop - acc - (e.start - off + m) =
          shiftFOff m e.stop (acc + (e.start - off) + m) rest q.stop -
            (acc + (e.start - off) + m) := by omega
      rw [hf1, hf2, hIH]
      rw [sliceD_drop]
      have g1 : q.start - e.stop + (e.stop - off) = q.start - off := by omega
      have g2 : q.stop - e.stop + (e.stop - off) = q.stop - off := by omega
      rw [g1, g2]

theorem applyAscOff_inv (m : Nat) (A B : Doc) :
    ∀ (es : List Span) (off acc : Nat) (src : Doc),
      B.length = m →
      (∀ sp ∈ es, off ≤ sp.start ∧ sp.start < sp.stop ∧
        sp.stop ≤ off + src.length) →
      es.Pairwise (fun a b => a.stop ≤ b.start) →
      (∀ sp ∈ es, sliceD src ⟨sp.start - off, sp.stop - off⟩ = A) →
      applyAscOff acc (applyAscOff off src (es.map (fun sp => (sp, B))))
        (es.map (fun sp =>
          ((⟨shiftFOff m off acc es sp.start,
             shiftFOff m off acc es sp.start + m⟩ : Span), A))) = src := by
  intro es
  induction es with
  | nil =>
    intro off acc src _ _ _ _
    simp only [List.map_nil]
    rw [applyAscOff, applyAscOff]
  | cons e rest ih =>
    intro off acc src hmB hb hpw hsl
    have he := hb e (List.mem_cons_self e rest)
    have hestop := (List.pairwise_cons.mp hpw).1
    have hpw2 := (List.pairwise_cons.mp hpw).2
    have hlen : (src.take (e.start - off)).length = e.start - off := by
      rw [List.length_take]
      omega
    have hrb : ∀ q ∈ rest, e.stop ≤ q.start ∧ q.start < q.stop ∧
        q.stop ≤ e.stop + (src.drop (e.stop - off)).length := by
      intro q hq
      have h1 := hestop q hq
      have h2 := hb q (List.mem_cons_of_mem e hq)
      rw [List.length_drop]
      exact ⟨h1, h2.2.1, by omega⟩
    have hslr : ∀ sp ∈ rest, sliceD (src.drop (e.stop - off))
        ⟨sp.start - e.stop, sp.stop - e.stop⟩ = A := by
      intro sp hsp
      have h1 := hestop sp hsp
      have h2 := hb sp (List.mem_cons_of_mem e hsp)
      rw [sliceD_drop]
      have g1 : sp.start - e.stop + (e.stop - off) = sp.start - off := by
        omega
      have g2 : sp.stop - e.stop + (e.stop - off) = sp.stop - off := by
        omega
      rw [g1, g2]
      exact hsl sp (List.mem_cons_of_mem e hsp)
    have hIH := ih e.stop (acc + (e.start - off) + m)
      (src.drop (e.stop - off)) hmB hrb hpw2 hslr
    simp only [List.map_cons]
    have hF1 : shiftFOff m off acc (e :: rest) e.start =
        acc + (e.start - off) := by
      rw [shiftFOff, if_neg (by omega)]
    rw [hF1]
    have hmapg : rest.map (fun sp =>
          ((⟨shiftFOff m off acc (e :: rest) sp.start,
             shiftFOff m off acc (e :: rest) sp.start + m⟩ : Span), A)) =
        rest.map (fun sp =>
          ((⟨shiftFOff m e.stop (acc + (e.start - off) + m) rest sp.start,
             shiftFOff m e.stop (acc + (e.start - off) + m) rest sp.start +
               m⟩ : Span), A)) := by
      apply List.map_congr_left
      intro sp hsp
      have hx : shiftFOff m off acc (e :: rest) sp.start =
          shiftFOff m e.stop (acc + (e.start - off) + m) rest sp.start := by
        rw [shiftFOff, if_pos (hestop sp hsp)]
      rw [hx]
    rw [hmapg]
    rw [applyAscOff]
    rw [applyAscOff]
    dsimp only
    have hD1 : ((src.take (e.start - off) ++ B) ++
        applyAscOff e.stop (src.drop (e.stop - off))
          (rest.map (fun sp => (sp, B)))).take
        (acc + (e.start - off) - acc) = src.take (e.start - off) := by
      have hc : acc + (e.start - off) - acc = e.start - off := by omega
      rw [hc]
      rw [List.take_append_of_le_length (by
        rw [List.length_append, hlen, hmB]
        omega)]
      rw [List.take_append_of_le_length (le_of_eq hlen.symm)]
      rw [List.take_take, Nat.min_self]
    have hD2 : ((src.take (e.start - off) ++ B) ++
        applyAscOff e.stop (src.drop (e.stop - off))
          (rest.map (fun sp => (sp, B)))).drop
        (acc + (e.start - off) + m - acc) =
        applyAscOff e.stop (src.drop (e.stop - off))
          (rest.map (fun sp => (sp, B))) := by
      have hc : acc + (e.start - off) + m - acc = e.start - off + m := by
        omega
      rw [hc]
      rw [show e.start - off + m = (src.take (e.start - off) ++ B).length
        from by rw [List.length_append, hlen, hmB]]
      exact List.drop_left _ _
    rw [hD1, hD2, hIH]
    rw [← hsl e (List.mem_cons_self e rest)]
    exact slice_splice src (e.start - off) (e.stop - off) (by omega)
      (by omega)

theorem mapSpanF_kind (F : Nat → Nat) (t : TSNode) :
    (mapSpanF F t).kind = t.kind := by
  cases t with
  | node k nm fl sp cs => rfl

theorem mapSpanF_isNamed (F : Nat → Nat) (t : TSNode) :
    (mapSpanF F t).isNamed = t.isNamed := by
  cases t with
  | node k nm fl sp cs => rfl

theorem mapSpanF_fld (F : Nat → Nat) (t : TSNode) :
    (mapSpanF F t).fld = t.fld := by
  cases t with
  | node k nm fl sp cs => rfl

theorem mapSpanF_span (F : Nat → Nat) (t : TSNode) :
    (mapSpanF F t).span = ⟨F t.span.start, F t.span.stop⟩ := by
  cases t with
  | node k nm fl sp cs => rfl

theorem mapSpanF_children (F : Nat → Nat) (t : TSNode) :
    (mapSpanF F t).children = (t.children).map (mapSpanF F) := by
  cases t with
  | node k nm fl sp cs =>
    show mapSpanL F cs = cs.map (mapSpanF F)
    exact mapSpanL_eq_map F cs

theorem getPath_map (F : Nat → Nat) :
    ∀ (p : TPath) (t : TSNode),
      getPath (mapSpanF F t) p = (getPath t p).map (mapSpanF F) := by
  intro p
  induction p with
  | nil => intro t; rfl
  | cons i q ih =>
    intro t
    rw [getPath, getPath, mapSpanF_children, List.getElem?_map]
    cases h : t.children[i]? with
    | none => rfl
    | some c =>
      dsimp only [Option.map]
      exact ih c

theorem ffnAux_map (F : Nat → Nat) (t : TSNode) :
    ∀ (fuel : Nat) (p : TPath),
      ffnAux (mapSpanF F t) fuel p = ffnAux t fuel p := by
  intro fuel
  induction fuel with
  | zero =>
    intro p
    rw [ffnAux, ffnAux, getPath_map]
    cases h : getPath t p with
    | none => rfl
    | some n =>
      dsimp only [Option.map]
      rw [mapSpanF_kind]
  | succ fuel ih =>
    intro p
    rw [ffnAux, ffnAux, getPath_map]
    cases h : getPath t p with
    | none =>
      dsimp only [Option.map]
      by_cases hp : p = []
      · rw [if_pos hp, if_pos hp]
      · rw [if_neg hp, if_neg hp, ih]
    | some n =>
      dsimp only [Option.map]
      rw [mapSpanF_kind]
      by_cases hk : (n.kind == "FUNCDEF") = true
      · rw [if_pos hk, if_pos hk]
      · rw [if_neg hk, if_neg hk]
        by_cases hp : p = []
        · rw [if_pos hp, if_pos hp]
        · rw [if_neg hp, if_neg hp, ih]

theorem find_funcdef_map (F : Nat → Nat) (t : TSNode) (p : TPath) :
    find_funcdef_from_child_node (mapSpanF F t) p =
      find_funcdef_from_child_node t p := by
  rw [find_funcdef_from_child_node, find_funcdef_from_child_node, ffnAux_map]

theorem namedChild0_map (F : Nat → Nat) (n : TSNode) :
    namedChild0 (mapSpanF F n) = (namedChild0 n).map (mapSpanF F) := by
  rw [namedChild0, namedChild0, mapSpanF_children]
  induction n.children with
  | nil => rfl
  | cons c cs ih =>
    rw [List.map_cons, List.find?_cons, List.find?_cons, mapSpanF_isNamed]
    cases h : c.isNamed with
    | false => exact ih
    | true => rfl

theorem is_renamable_ident {n : TSNode} (h : n.kind = "IDENT") :
    is_renamable n = none := by
  unfold is_renamable
  rw [h]
  rfl

theorem is_renamable_congr {n n2 : TSNode} (h : n2.kind = n.kind) :
    is_renamable n2 = is_renamable n := by
  unfold is_renamable
  rw [h]

theorem sibOrdered_lt {cs : List TSNode} (h : sibOrdered cs = true) :
    ∀ {j i : Nat} {d c : TSNode}, j < i → cs[j]? = some d →
      cs[i]? = some c → d.span.stop ≤ c.span.start := by
  induction cs with
  | nil =>
    intro j i d c _ hj _
    rw [List.getElem?_nil] at hj
    cases hj
  | cons e es ih =>
    intro j i d c hji hj hi
    simp only [sibOrdered, Bool.and_eq_true, List.all_eq_true,
      decide_eq_true_eq] at h
    cases j with
    | zero =>
      rw [List.getElem?_cons_zero] at hj
      cases hj
      cases i with
      | zero => omega
      | succ i2 =>
        rw [List.getElem?_cons_succ] at hi
        exact h.1 c (List.getElem?_mem hi)
    | succ j2 =>
      cases i with
      | zero => omega
      | succ i2 =>
        rw [List.getElem?_cons_succ] at hj hi
        exact ih h.2 (by omega) hj hi

theorem namedDescInList_some : ∀ (cs : List TSNode) (i0 b : Nat) (p : TPath),
    namedDescInList cs i0 b = some p →
    ∃ i q c, p = i :: q ∧ i0 ≤ i ∧ cs[i - i0]? = some c ∧
      namedDescPath c b = some q := by
  intro cs
  induction cs with
  | nil => intro i0 b p h; cases h
  | cons c cs ih =>
    intro i0 b p h
    rw [namedDescInList] at h
    by_cases hcov : coversB c.span b = true
    · rw [if_pos hcov] at h
      cases hch : namedDescPath c b with
      | some q =>
        rw [hch] at h
        dsimp only at h
        cases h
        exact ⟨i0, q, c, rfl, le_rfl, by simp, hch⟩
      | none =>
        rw [hch] at h
        dsimp only at h
        obtain ⟨i, q, d, rfl, hle, hget, hd⟩ := ih (i0 + 1) b p h
        refine ⟨i, q, d, rfl, by omega, ?_, hd⟩
        have he : i - i0 = (i - (i0 + 1)) + 1 := by omega
        rw [he, List.getElem?_cons_succ]
        exact hget
    · rw [if_neg hcov] at h
      obtain ⟨i, q, d, rfl, hle, hget, hd⟩ := ih (i0 + 1) b p h
      refine ⟨i, q, d, rfl, by omega, ?_, hd⟩
      have he : i - i0 = (i - (i0 + 1)) + 1 := by omega
      rw [he, List.getElem?_cons_succ]
      exact hget

theorem namedDescPath_isNamed :
    ∀ (t : TSNode) (b : Nat) (p : TPath), namedDescPath t b = some p →
      ∃ x, getPath t p = some x ∧ x.isNamed = true := by
  refine TSNode.strongInd (fun t => ∀ (b : Nat) (p : TPath),
    namedDescPath t b = some p →
    ∃ x, getPath t p = some x ∧ x.isNamed = true) ?_
  intro t ih b p h
  cases t with
  | node k nm fl sp cs =>
    rw [namedDescPath] at h
    cases hl : namedDescInList cs 0 b with
    | some p0 =>
      rw [hl] at h
      dsimp only at h
      cases h
      obtain ⟨i, q, c, rfl, -, hget, hc⟩ := namedDescInList_some cs 0 b p hl
      rw [Nat.sub_zero] at hget
      obtain ⟨x, hx1, hx2⟩ := ih c (List.getElem?_mem hget) b q hc
      refine ⟨x, ?_, hx2⟩
      rw [getPath]
      show (match cs[i]? with
        | some c => getPath c q
        | none => none) = some x
      rw [hget]
      exact hx1
    | none =>
      rw [hl] at h
      dsimp only at h
      by_cases hnm : nm = true
      · rw [if_pos hnm] at h
        cases h
        exact ⟨.node k nm fl sp cs, rfl, hnm⟩
      · rw [if_neg hnm] at h
        cases h

theorem namedDescInList_at :
    ∀ (cs : List TSNode) (i0 i : Nat) (c : TSNode) (b : Nat) (p : TPath),
      cs[i]? = some c →
      (∀ j, j < i → ∀ d, cs[j]? = some d → coversB d.span b = false) →
      coversB c.span b = true → namedDescPath c b = some p →
      namedDescInList cs i0 b = some ((i0 + i) :: p) := by
  intro cs
  induction cs with
  | nil =>
    intro i0 i c b p hget _ _ _
    rw [List.getElem?_nil] at hget
    cases hget
  | cons e es ih =>
    intro i0 i c b p hget hbefore hcov hch
    rw [namedDescInList]
    cases i with
    | zero =>
      rw [List.getElem?_cons_zero] at hget
      cases hget
      rw [if_pos hcov, hch]
      show some (i0 :: p) = some ((i0 + 0) :: p)
      rw [Nat.add_zero]
    | succ i2 =>
      rw [List.getElem?_cons_succ] at hget
      have hne : coversB e.span b = false :=
        hbefore 0 (by omega) e List.getElem?_cons_zero
      rw [if_neg (by simp [hne])]
      have hrec := ih (i0 + 1) i2 c b p hget
        (fun j hj d hd => hbefore (j + 1) (by omega) d
          (by rw [List.getElem?_cons_succ]; exact hd)) hcov hch
      have heq : i0 + 1 + i2 = i0 + (i2 + 1) := by omega
      rw [hrec, heq]

theorem namedDescPath_of_leaf :
    ∀ (t : TSNode), wfN t = true →
      ∀ (p : TPath) (x : TSNode) (b : Nat), getPath t p = some x →
        x.isNamed = true → x.children = [] →
        x.span.start ≤ b → b + 1 ≤ x.span.stop →
        namedDescPath t b = some p := by
  refine TSNode.strongInd (fun t => wfN t = true →
    ∀ (p : TPath) (x : TSNode) (b : Nat), getPath t p = some x →
      x.isNamed = true → x.children = [] →
      x.span.start ≤ b → b + 1 ≤ x.span.stop →
      namedDescPath t b = some p) ?_
  intro t ih hw p x b hget hnm hleaf hb1 hb2
  cases t with
  | node k nm fl sp cs =>
    cases p with
    | nil =>
      rw [getPath] at hget
      cases hget
      rw [namedDescPath]
      have : namedDescInList cs 0 b = none := by
        rw [show cs = ([] : List TSNode) from hleaf]
        rfl
      rw [this]
      dsimp only
      have hnm2 : nm = true := hnm
      rw [if_pos hnm2]
    | cons i q =>
      rw [getPath] at hget
      cases hc : (TSNode.node k nm fl sp cs).children[i]? with
      | none =>
        rw [hc] at hget
        cases hget
      | some c =>
        rw [hc] at hget
        dsimp only at hget
        have hcm : c ∈ cs := List.getElem?_mem hc
        have hwc : wfN c = true := wfN_child hw hcm
        have hsubx : SubT x c := getPath_subT q c x hget
        have hxin := SubT.span_in hwc hsubx
        simp only [spanIn, Bool.and_eq_true, decide_eq_true_eq] at hxin
        have hihc := ih c hcm hwc q x b hget hnm hleaf hb1 hb2
        rw [namedDescPath]
        have hlist := namedDescInList_at cs 0 i c b q hc
          (fun j hj d hd => ?_) (by
            simp only [coversB, Bool.and_eq_true, decide_eq_true_eq]
            omega) hihc
        · rw [hlist]
          show some ((0 + i) :: q) = some (i :: q)
          rw [Nat.zero_add]
        · have hord : d.span.stop ≤ c.span.start :=
            sibOrdered_lt (wfN_parts hw).2.2.1 hj hd hc
          have : ¬ (b + 1 ≤ d.span.stop) := by omega
          simp [coversB, this]


/-- An endpoint of some node of the subtree rooted at `t`. -/
def endPtOf (t : TSNode) (p : Nat) : Prop :=
  ∃ x, SubT x t ∧ (p = x.span.start ∨ p = x.span.stop)

theorem endPtOf_lift {t c : TSNode} (hc : c ∈ t.children) {p : Nat}
    (h : endPtOf c p) : endPtOf t p := by
  obtain ⟨x, hx, he⟩ := h
  exact ⟨x, SubT.child hc hx, he⟩

theorem wfN_map (F : Nat → Nat) :
    ∀ t : TSNode, wfN t = true →
      (∀ p q, endPtOf t p → endPtOf t q →
        (p ≤ q → F p ≤ F q) ∧ (p < q → F p < F q)) →
      wfN (mapSpanF F t) = true := by
  refine TSNode.strongInd (fun t => wfN t = true →
    (∀ p q, endPtOf t p → endPtOf t q →
      (p ≤ q → F p ≤ F q) ∧ (p < q → F p < F q)) →
    wfN (mapSpanF F t) = true) ?_
  intro t ih hw hF
  have hp := wfN_parts hw
  have hFc : ∀ c ∈ t.children,
      ∀ p q, endPtOf c p → endPtOf c q →
        (p ≤ q → F p ≤ F q) ∧ (p < q → F p < F q) :=
    fun c hc p q h1 h2 => hF p q (endPtOf_lift hc h1) (endPtOf_lift hc h2)
  have hselfs : endPtOf t t.span.start := ⟨t, SubT.refl t, Or.inl rfl⟩
  have hselfe : endPtOf t t.span.stop := ⟨t, SubT.refl t, Or.inr rfl⟩
  have hcs : ∀ c ∈ t.children, endPtOf t c.span.start ∧
      endPtOf t c.span.stop := fun c hc =>
    ⟨⟨c, SubT.child hc (SubT.refl c), Or.inl rfl⟩,
     ⟨c, SubT.child hc (SubT.refl c), Or.inr rfl⟩⟩
  rw [wfN_eq]
  rw [mapSpanF_span, mapSpanF_children, mapSpanF_kind, mapSpanF_isNamed]
  simp only [Bool.and_eq_true]
  refine ⟨⟨⟨⟨⟨⟨?_, ?_⟩, ?_⟩, ?_⟩, ?_⟩, ?_⟩, ?_⟩
  · -- positive width
    simp only [decide_eq_true_eq]
    exact (hF _ _ hselfs hselfe).2 hp.1
  · -- children nested in the parent span
    rw [List.all_eq_true]
    intro c2 hc2
    obtain ⟨c, hc, rfl⟩ := List.mem_map.mp hc2
    have hin := hp.2.1 c hc
    simp only [spanIn, Bool.and_eq_true, decide_eq_true_eq,
      mapSpanF_span] at hin ⊢
    exact ⟨(hF _ _ hselfs (hcs c hc).1).1 hin.1,
           (hF _ _ (hcs c hc).2 hselfe).1 hin.2⟩
  · -- sibling ordering
    have hgen : ∀ l : List TSNode, (∀ c ∈ l, c ∈ t.children) →
        sibOrdered l = true → sibOrdered (l.map (mapSpanF F)) = true := by
      intro l
      induction l with
      | nil => intro _ _; rfl
      | cons c cs ihl =>
        intro hsub h
        simp only [sibOrdered, Bool.and_eq_true, List.all_eq_true,
          decide_eq_true_eq, List.map_cons] at h ⊢
        refine ⟨?_, ihl (fun d hd => hsub d (List.mem_cons_of_mem c hd)) h.2⟩
        intro d2 hd2
        obtain ⟨d, hd, rfl⟩ := List.mem_map.mp hd2
        rw [mapSpanF_span, mapSpanF_span]
        have hcd := h.1 d hd
        have hcm := hsub c (List.mem_cons_self c cs)
        have hdm := hsub d (List.mem_cons_of_mem c hd)
        exact (hF _ _ (hcs c hcm).2 (hcs d hdm).1).1 hcd
    exact hgen t.children (fun c hc => hc) hp.2.2.1
  · -- unnamed nodes are leaves
    simp only [decide_eq_true_eq]
    intro hnm
    have : t.children = [] := hp.2.2.2.1 (by
      cases h : t.isNamed with
      | false => rfl
      | true => rw [h] at hnm; simp at hnm)
    rw [this]
    rfl
  · -- IDENT nodes are leaves
    simp only [decide_eq_true_eq]
    intro hk
    have : t.children = [] := hp.2.2.2.2.1 (by simpa using hk)
    rw [this]
    rfl
  · -- wrapping nodes keep their unique named IDENT child
    simp only [decide_eq_true_eq]
    intro hwk
    obtain ⟨hnm, u, hflt, hu1, hu2⟩ := wfN_wrap hw hwk
    have hpred : ((fun c : TSNode => c.isNamed) ∘ mapSpanF F) =
        (fun c : TSNode => c.isNamed) := by
      funext c
      simp [Function.comp, mapSpanF_isNamed]
    have hfm : (t.children.map (mapSpanF F)).filter (fun c => c.isNamed) =
        (t.children.filter (fun c => c.isNamed)).map (mapSpanF F) := by
      rw [List.filter_map, hpred]
    rw [hfm, hflt]
    simp only [List.map_cons, List.map_nil]
    simp [hnm, mapSpanF_kind, mapSpanF_fld, hu1, hu2]
  · -- children remain well-formed
    have hgen : ∀ l : List TSNode, (∀ c ∈ l, c ∈ t.children) →
        wfL l = true → wfL (l.map (mapSpanF F)) = true := by
      intro l
      induction l with
      | nil => intro _ _; rfl
      | cons c cs ihl =>
        intro hsub h
        simp only [wfL, Bool.and_eq_true, List.map_cons] at h ⊢
        have hcm := hsub c (List.mem_cons_self c cs)
        exact ⟨ih c hcm h.1 (hFc c hcm),
               ihl (fun d hd => hsub d (List.mem_cons_of_mem c hd)) h.2⟩
    exact hgen t.children (fun c hc => hc) hp.2.2.2.2.2

theorem renameWalk_map {src src2 A B2 : Doc} {kd : String} {F : Nat → Nat} :
    ∀ n : TSNode,
      (∀ w u, SubT w n → w.kind = kd → namedChild0 w = some u →
        (nodeText src u = A → nodeText src2 (mapSpanF F u) = B2) ∧
        (nodeText src u ≠ A → nodeText src2 (mapSpanF F u) = nodeText src u ∧
          nodeText src u ≠ B2)) →
      ∀ l, renameWalkN src A kd n = some l →
        renameWalkN src2 B2 kd (mapSpanF F n) = some (l.map (mapSpanF F)) := by
  refine TSNode.strongInd (fun n =>
    (∀ w u, SubT w n → w.kind = kd → namedChild0 w = some u →
      (nodeText src u = A → nodeText src2 (mapSpanF F u) = B2) ∧
      (nodeText src u ≠ A → nodeText src2 (mapSpanF F u) = nodeText src u ∧
        nodeText src u ≠ B2)) →
    ∀ l, renameWalkN src A kd n = some l →
      renameWalkN src2 B2 kd (mapSpanF F n) = some (l.map (mapSpanF F))) ?_
  intro n ih hcond l hl
  rw [renameWalkN_eq] at hl
  rw [renameWalkN_eq, mapSpanF_children]
  suffices hgen : ∀ cs, (∀ c ∈ cs, c ∈ n.children) → ∀ l2,
      renameWalkL src A kd cs = some l2 →
      renameWalkL src2 B2 kd (cs.map (mapSpanF F)) =
        some (l2.map (mapSpanF F)) from
    hgen n.children (fun c hc => hc) l hl
  intro cs
  induction cs with
  | nil =>
    intro _ l2 h
    rw [renameWalkL] at h
    cases h
    rfl
  | cons c cs ihc =>
    intro hsub l2 hl2
    obtain ⟨here, rest, rfl, hrest, hcase⟩ := renameWalkL_cons_inv hl2
    have hcm := hsub c (List.mem_cons_self c cs)
    have hrest2 := ihc (fun d hd => hsub d (List.mem_cons_of_mem c hd))
      rest hrest
    rw [List.map_cons, renameWalkL]
    rcases hcase with ⟨hk, idc, hnc0, rfl⟩ | ⟨hk, hrec⟩
    · -- the head child is a wrapping node of the target kind
      have hkk : ((mapSpanF F c).kind == kd) = true := by
        rw [mapSpanF_kind]
        simp [hk]
      rw [if_pos hkk, namedChild0_map, hnc0]
      dsimp only [Option.map]
      have hcc := hcond c idc (SubT.child hcm (SubT.refl c)) hk hnc0
      rw [hrest2]
      dsimp only
      by_cases ht : nodeText src idc = A
      · have hBB : (nodeText src2 (mapSpanF F idc) == B2) = true := by
          rw [hcc.1 ht]
          simp
        rw [if_pos hBB, if_pos ht, List.map_append]
        rfl
      · obtain ⟨hpres, hneB⟩ := hcc.2 ht
        have hBB : (nodeText src2 (mapSpanF F idc) == B2) = false := by
          rw [hpres]
          simp [hneB]
        rw [if_neg (by simp [hBB]), if_neg ht, List.map_append]
        rfl
    · -- the head child has another kind: the walk recursed into it
      have hkk : ((mapSpanF F c).kind == kd) = false := by
        rw [mapSpanF_kind]
        simp [hk]
      rw [if_neg (by simp [hkk])]
      have hrec2 := ih c hcm
        (fun w u hsw hwk hncw => hcond w u (SubT.child hcm hsw) hwk hncw)
        here hrec
      rw [hrec2]
      dsimp only
      rw [hrest2]
      dsimp only
      rw [List.map_append]

theorem find_ident_node_named {t : TSNode} {b : Nat} {cp ip : TPath}
    {k : IdentKind} {idN : TSNode}
    (hcp : namedDescPath t b = some cp)
    (h : find_ident_node t cp = some (ip, k))
    (hid : getPath t ip = some idN) :
    idN.isNamed = true ∧ ip ≠ [] := by
  unfold find_ident_node at h
  cases hn : getPath t cp with
  | none => rw [hn] at h; cases h
  | some n =>
    rw [hn] at h
    dsimp only at h
    cases hren : is_renamable n with
    | some k2 =>
      rw [hren] at h
      dsimp only at h
      cases hidx : namedChild0Idx n with
      | none => rw [hidx] at h; cases h
      | some i =>
        rw [hidx] at h
        dsimp only at h
        cases h
        obtain ⟨x, hx1, hx2, hx3⟩ := findIdx?_zero_getElem _ n.children i hidx
        have hgp : getPath t (cp ++ [i]) = some x := by
          rw [getPath_append, hn]
          simpa using hx1
        rw [hgp] at hid
        cases hid
        exact ⟨hx2, by simp⟩
    | none =>
      rw [hren] at h
      dsimp only at h
      by_cases hident : (n.kind == "IDENT") = true
      · rw [if_pos hident] at h
        cases cp with
        | nil => simp at h
        | cons j q =>
          dsimp only at h
          cases hpar : getPath t (j :: q).dropLast with
          | none => rw [hpar] at h; cases h
          | some par =>
            rw [hpar] at h
            dsimp only at h
            cases hrenp : is_renamable par with
            | none => rw [hrenp] at h; cases h
            | some k3 =>
              rw [hrenp] at h
              dsimp only at h
              cases h
              obtain ⟨x, hx1, hx2⟩ := namedDescPath_isNamed t b (j :: q) hcp
              rw [hx1] at hn
              cases hn
              rw [hx1] at hid
              cases hid
              exact ⟨hx2, by simp⟩
      · rw [if_neg hident] at h; cases h

theorem classified_wrapper {t : TSNode} {b : Nat} {cp ip : TPath}
    {k : IdentKind} {idN : TSNode} (hw : wfN t = true)
    (hcp : namedDescPath t b = some cp)
    (hfi : find_ident_node t cp = some (ip, k))
    (hid : getPath t ip = some idN) :
    ∃ w0, getPath t ip.dropLast = some w0 ∧ w0.kind = k.kind ∧
      namedChild0 w0 = some idN ∧ idN ∈ w0.children := by
  obtain ⟨w, idN2, hwp, hid2, hren, hmem, hnc⟩ := find_ident_node_spec hfi
  rw [hid] at hid2
  cases hid2
  have hwkk : w.kind = k.kind := is_renamable_kind_eq hren
  have hwsub : SubT w t := getPath_subT _ _ _ hwp
  have hww : wfN w = true := wfN_subT hw hwsub
  have hwk : isWrapKind w.kind = true := by
    rw [hwkk]; exact isWrapKind_kind k
  rcases hnc with hnc0 | hkind
  · exact ⟨w, hwp, hwkk, hnc0, hmem⟩
  · -- the bare-identifier branch: the node is the unique named child
    obtain ⟨u, hu, -, -, -, -, hflt, -⟩ := namedChild0_of_wrap hww hwk
    have hnmN : idN.isNamed = true := (find_ident_node_named hcp hfi hid).1
    have : idN ∈ w.children.filter (fun x => x.isNamed) := by
      simp [List.mem_filter, hmem, hnmN]
    rw [hflt] at this
    simp only [List.mem_singleton] at this
    subst this
    exact ⟨w, hwp, hwkk, hu, hmem⟩

/-- Core of the round-trip argument: after applying a rename plan and
re-parsing (modelled as the span translation of the edit), the second
rename request at the image of the cursor classifies the same occurrence,
resolves the same boundary, collects exactly the images of the first
plan's targets, and its plan restores the original document. -/
theorem c8_core {src B A : Doc} {t : TSNode} {b m : Nat} {cp ip : TPath}
    {k : IdentKind} {idN bd : TSNode} {ids : List TSNode}
    {E : List Span} {F : Nat → Nat}
    (hw : wfN t = true) (hroot : t.span = ⟨0, src.length⟩)
    (hmB : B.length = m) (hm : 1 ≤ m)
    (hA : A = nodeText src idN)
    (hcp : namedDescPath t b = some cp)
    (hfi : find_ident_node t cp = some (ip, k))
    (hid : getPath t ip = some idN)
    (hbdsub : SubT bd t)
    (hbdne : ∀ w : TSNode, w.kind = k.kind → w ≠ bd)
    (hwrap : ∃ w0, getPath t ip.dropLast = some w0 ∧ SubT w0 bd ∧
      w0.kind = k.kind ∧ namedChild0 w0 = some idN)
    (hwalk : renameWalkN src A k.kind bd = some ids)
    (hnc : renameWalkN src B k.kind bd = some [])
    (hE : E = ids.map TSNode.span)
    (hF : F = shiftF m E) :
    namedDescPath (mapSpanF F t) (F idN.span.start) = some ip ∧
    find_ident_node (mapSpanF F t) ip = some (ip, k) ∧
    getPath (mapSpanF F t) ip = some (mapSpanF F idN) ∧
    nodeText (applyAsc src (ids.map (fun i => (i.span, B))))
      (mapSpanF F idN) = B ∧
    renameWalkN (applyAsc src (ids.map (fun i => (i.span, B)))) B k.kind
      (mapSpanF F bd) = some (ids.map (mapSpanF F)) ∧
    applyAsc (applyAsc src (ids.map (fun i => (i.span, B))))
      ((ids.map (mapSpanF F)).map (fun i => (i.span, A))) = src := by
  subst hF
  subst hE
  have hkd : isWrapKind k.kind = true := isWrapKind_kind k
  have hwbd : wfN bd = true := wfN_subT hw hbdsub
  have hsnd := renameWalk_sound bd ids hwalk
  have hxf : ∀ x ∈ ids, x.kind = "IDENT" ∧ x.children = [] ∧ SubT x bd ∧
      wfN x = true ∧ nodeText src x = A := by
    intro x hx
    obtain ⟨wx, hstrict, hwxk, hwxc, hxt⟩ := hsnd x hx
    obtain ⟨c, hc, hsubc⟩ := hstrict
    have hwxbd : SubT wx bd := SubT.child hc hsubc
    have hwwx : wfN wx = true := wfN_subT hwbd hwxbd
    have hwkx : isWrapKind wx.kind = true := by rw [hwxk]; exact hkd
    obtain ⟨u, hu, hu1, -, -, hum, -, -⟩ := namedChild0_of_wrap hwwx hwkx
    rw [hwxc] at hu
    cases hu
    have hxbd : SubT x bd := SubT.trans (SubT.child hum (SubT.refl x)) hwxbd
    have hwfx : wfN x = true := wfN_subT hwbd hxbd
    exact ⟨hu1, (wfN_parts hwfx).2.2.2.2.1 hu1, hxbd, hwfx, hxt⟩
  have hsubT_t : ∀ x ∈ ids, SubT x t :=
    fun x hx => SubT.trans (hxf x hx).2.2.1 hbdsub
  have hEb : ∀ sp ∈ ids.map TSNode.span, (0:Nat) ≤ sp.start ∧
      sp.start < sp.stop ∧ sp.stop ≤ 0 + src.length := by
    intro sp hsp
    obtain ⟨x, hx, rfl⟩ := List.mem_map.mp hsp
    have hwfx := (hxf x hx).2.2.2.1
    have hin := SubT.span_in hw (hsubT_t x hx)
    rw [hroot] at hin
    simp only [spanIn, Bool.and_eq_true, decide_eq_true_eq] at hin
    exact ⟨by omega, (wfN_parts hwfx).1, by omega⟩
  have hEb2 : ∀ sp ∈ ids.map TSNode.span, (0:Nat) ≤ sp.start ∧
      sp.start < sp.stop :=
    fun sp h => ⟨(hEb sp h).1, (hEb sp h).2.1⟩
  have hEpw : (ids.map TSNode.span).Pairwise
      (fun a b => a.stop ≤ b.start) := by
    have := (renameWalk_ordered bd hwbd ids hwalk).2
    exact List.pairwise_map.mpr this
  have hclean : ∀ p, endPtOf t p → cleanPt (ids.map TSNode.span) p := by
    intro p hp sp hsp
    obtain ⟨x, hxt, hpe⟩ := hp
    obtain ⟨y, hy, rfl⟩ := List.mem_map.mp hsp
    obtain ⟨hyk, hyleaf, hybd, hwfy, -⟩ := hxf y hy
    have hyt := hsubT_t y hy
    have hwfx : wfN x = true := wfN_subT hw hxt
    have hxw := (wfN_parts hwfx).1
    rcases subT_trichotomy hxt hw y hyt with hxy | hyx | hdisj
    · have hxey : x = y := subT_of_leaf hyleaf hxy
      subst hxey
      rcases hpe with rfl | rfl
      · exact Or.inl le_rfl
      · exact Or.inr le_rfl
    · have hin := SubT.span_in hwfx hyx
      simp only [spanIn, Bool.and_eq_true, decide_eq_true_eq] at hin
      rcases hpe with rfl | rfl
      · exact Or.inl hin.1
      · exact Or.inr hin.2
    · unfold spanDisj at hdisj
      rcases hpe with rfl | rfl <;> rcases hdisj with h | h
      · exact Or.inl (by omega)
      · exact Or.inr (by omega)
      · exact Or.inl (by omega)
      · exact Or.inr (by omega)
  have hFm : ∀ p q, endPtOf t p → endPtOf t q →
      (p ≤ q → shiftF m (ids.map TSNode.span) p ≤
        shiftF m (ids.map TSNode.span) q) ∧
      (p < q → shiftF m (ids.map TSNode.span) p <
        shiftF m (ids.map TSNode.span) q) := by
    intro p q hp hq
    constructor
    · intro hpq
      exact (shiftFOff_mono m hm (ids.map TSNode.span) 0 0 p q hEb2 hEpw
        (hclean p hp) (hclean q hq) (Nat.zero_le p) hpq).1
    · intro hlt
      exact (shiftFOff_mono m hm (ids.map TSNode.span) 0 0 p q hEb2 hEpw
        (hclean p hp) (hclean q hq) (Nat.zero_le p) (le_of_lt hlt)).2 hlt
  have hstop : ∀ sp ∈ ids.map TSNode.span,
      shiftF m (ids.map TSNode.span) sp.stop =
        shiftF m (ids.map TSNode.span) sp.start + m :=
    fun sp hsp => shiftFOff_edit_stop m (ids.map TSNode.span) 0 0 hEb2
      hEpw sp hsp
  have hmapE : (ids.map TSNode.span).map (fun q => (q, B)) =
      ids.map (fun i => (i.span, B)) := by
    rw [List.map_map]
    rfl
  have hsrc2 : applyAsc src (ids.map (fun i => (i.span, B))) =
      applyAscOff 0 src ((ids.map TSNode.span).map (fun q => (q, B))) := by
    rw [hmapE]
    rfl
  have htextEdit : ∀ u : TSNode, u.span ∈ ids.map TSNode.span →
      nodeText (applyAsc src (ids.map (fun i => (i.span, B))))
        (mapSpanF (shiftF m (ids.map TSNode.span)) u) = B := by
    intro u hu
    unfold nodeText
    rw [mapSpanF_span, hstop u.span hu, hsrc2]
    exact applyAscOff_slice_edit m B hmB (ids.map TSNode.span) 0 0 src hEb
      hEpw u.span hu
  have htextClean : ∀ u : TSNode, SubT u t →
      (∀ sp ∈ ids.map TSNode.span, spanDisj u.span sp) →
      nodeText (applyAsc src (ids.map (fun i => (i.span, B))))
        (mapSpanF (shiftF m (ids.map TSNode.span)) u) = nodeText src u := by
    intro u hut hdisj
    unfold nodeText
    rw [mapSpanF_span, hsrc2]
    have hwfu : wfN u = true := wfN_subT hw hut
    have hin := SubT.span_in hw hut
    rw [hroot] at hin
    simp only [spanIn, Bool.and_eq_true, decide_eq_true_eq] at hin
    exact applyAscOff_slice_clean m B hmB (ids.map TSNode.span) 0 0 src hEb
      hEpw u.span hdisj (Nat.zero_le _) (le_of_lt (wfN_parts hwfu).1)
      (by omega)
  have hcond : ∀ w u, SubT w bd → w.kind = k.kind →
      namedChild0 w = some u →
      (nodeText src u = A →
        nodeText (applyAsc src (ids.map (fun i => (i.span, B))))
          (mapSpanF (shiftF m (ids.map TSNode.span)) u) = B) ∧
      (nodeText src u ≠ A →
        nodeText (applyAsc src (ids.map (fun i => (i.span, B))))
          (mapSpanF (shiftF m (ids.map TSNode.span)) u) = nodeText src u ∧
        nodeText src u ≠ B) := by
    intro w u hsw hwk hncw
    have hww : wfN w = true := wfN_subT hwbd hsw
    have hwkk : isWrapKind w.kind = true := by rw [hwk]; exact hkd
    obtain ⟨u0, hu0, -, -, -, hum, -, -⟩ := namedChild0_of_wrap hww hwkk
    rw [hncw] at hu0
    cases hu0
    have hub : SubT u bd := SubT.trans (SubT.child hum (SubT.refl u)) hsw
    have hut : SubT u t := SubT.trans hub hbdsub
    have hstrict : SubTstrict w bd := subT_strict_of_ne hsw (hbdne w hwk)
    constructor
    · intro htA
      have humem : u ∈ ids :=
        renameWalk_complete hkd bd hwbd ids hwalk w u hstrict hwk hncw htA
      exact htextEdit u (List.mem_map.mpr ⟨u, humem, rfl⟩)
    · intro htne
      have hneB : nodeText src u ≠ B := by
        intro hB2
        have := renameWalk_complete hkd bd hwbd [] hnc w u hstrict hwk
          hncw hB2
        cases this
      have huleaf : u.children = [] := wrap_child_leaf hww hwkk hum
      have hdisj : ∀ sp ∈ ids.map TSNode.span, spanDisj u.span sp := by
        intro sp hsp
        obtain ⟨y, hy, rfl⟩ := List.mem_map.mp hsp
        obtain ⟨hyk, hyleaf, hybd, hwfy, hytext⟩ := hxf y hy
        have hyt := hsubT_t y hy
        have hune : u ≠ y := by
          intro he
          subst he
          exact htne hytext
        rcases subT_trichotomy hut hw y hyt with h1 | h2 | h3
        · exact absurd (subT_of_leaf hyleaf h1) hune
        · exact absurd (subT_of_leaf huleaf h2) (fun he => hune he.symm)
        · exact h3
      exact ⟨htextClean u hut hdisj, hneB⟩
  have hwalk2 := renameWalk_map bd hcond ids hwalk
  obtain ⟨hidnm, hipne⟩ := find_ident_node_named hcp hfi hid
  have hidk : idN.kind = "IDENT" := classified_ident_kind hw hfi hid
  obtain ⟨w0, hw0p, hw0bd, hw0k, hw0nc⟩ := hwrap
  have hw0strict : SubTstrict w0 bd :=
    subT_strict_of_ne hw0bd (hbdne w0 hw0k)
  have hidm : idN ∈ ids :=
    renameWalk_complete hkd bd hwbd ids hwalk w0 idN hw0strict hw0k hw0nc
      hA.symm
  have hidspan : idN.span ∈ ids.map TSNode.span :=
    List.mem_map.mpr ⟨idN, hidm, rfl⟩
  have hidleaf : idN.children = [] :=
    (wfN_parts (wfN_subT hw (getPath_subT ip t idN hid))).2.2.2.2.1 hidk
  have ht2wf : wfN (mapSpanF (shiftF m (ids.map TSNode.span)) t) = true :=
    wfN_map _ t hw hFm
  have hpath2 : getPath (mapSpanF (shiftF m (ids.map TSNode.span)) t) ip =
      some (mapSpanF (shiftF m (ids.map TSNode.span)) idN) := by
    rw [getPath_map, hid]
    rfl
  have hdesc2 : namedDescPath (mapSpanF (shiftF m (ids.map TSNode.span)) t)
      (shiftF m (ids.map TSNode.span) idN.span.start) = some ip := by
    refine namedDescPath_of_leaf _ ht2wf ip _ _ hpath2 ?_ ?_ ?_ ?_
    · rw [mapSpanF_isNamed]
      exact hidnm
    · rw [mapSpanF_children, hidleaf]
      rfl
    · rw [mapSpanF_span]
    · rw [mapSpanF_span]
      show shiftF m (ids.map TSNode.span) idN.span.start + 1 ≤
        shiftF m (ids.map TSNode.span) idN.span.stop
      rw [hstop idN.span hidspan]
      omega
  have hfind2 : find_ident_node
      (mapSpanF (shiftF m (ids.map TSNode.span)) t) ip = some (ip, k) := by
    obtain ⟨j0, q0, hip⟩ := List.exists_cons_of_ne_nil hipne
    subst hip
    unfold find_ident_node
    rw [hpath2]
    dsimp only
    rw [is_renamable_ident (by rw [mapSpanF_kind]; exact hidk)]
    dsimp only
    rw [if_pos (by rw [mapSpanF_kind, hidk]; rfl)]
    rw [getPath_map, hw0p]
    dsimp only [Option.map]
    rw [is_renamable_of_kind (show
      (mapSpanF (shiftF m (ids.map TSNode.span)) w0).kind = k.kind by
        rw [mapSpanF_kind]; exact hw0k)]
  have htext2 : nodeText (applyAsc src (ids.map (fun i => (i.span, B))))
      (mapSpanF (shiftF m (ids.map TSNode.span)) idN) = B :=
    htextEdit idN hidspan
  have hslices : ∀ sp ∈ ids.map TSNode.span,
      sliceD src ⟨sp.start - 0, sp.stop - 0⟩ = A := by
    intro sp hsp
    obtain ⟨y, hy, rfl⟩ := List.mem_map.mp hsp
    exact (hxf y hy).2.2.2.2
  have hinv := applyAscOff_inv m A B (ids.map TSNode.span) 0 0 src hmB hEb
    hEpw hslices
  have hplan : (ids.map (mapSpanF (shiftF m (ids.map TSNode.span)))).map
      (fun i => (i.span, A)) =
      (ids.map TSNode.span).map (fun sp =>
        ((⟨shiftFOff m 0 0 (ids.map TSNode.span) sp.start,
           shiftFOff m 0 0 (ids.map TSNode.span) sp.start + m⟩ : Span),
         A)) := by
    rw [List.map_map, List.map_map]
    apply List.map_congr_left
    intro i hi
    simp only [Function.comp]
    rw [mapSpanF_span, hstop i.span (List.mem_map.mpr ⟨i, hi, rfl⟩)]
    rfl
  have hfinal : applyAsc (applyAsc src (ids.map (fun i => (i.span, B))))
      ((ids.map (mapSpanF (shiftF m (ids.map TSNode.span)))).map
        (fun i => (i.span, A))) = src := by
    rw [hplan]
    show applyAscOff 0 (applyAsc src (ids.map (fun i => (i.span, B)))) _ =
      src
    rw [hsrc2]
    exact hinv
  exact ⟨hdesc2, hfind2, hpath2, htext2, hwalk2, hfinal⟩

/-- C8 (counterexample): in document E the cursor local `%x` is renamed to
`y`, which collides with the existing local `%y`.  Applying the plan,
re-parsing (the edit preserves all lengths, so spans are carried by the
offset translation), and renaming the same occurrence back to `x` rewrites
both `y` occurrences, so the final text differs from the original: the
claimed unconditional round trip fails. -/
theorem c8_round_trip_cex :
    ∃ es1 es2,
      rename docE treeE 19 ("y".toList) = .ok es1 ∧
      rename (applyAsc docE es1)
        (mapSpanF (shiftF ("y".toList).length (es1.map Prod.fst)) treeE)
        (shiftF ("y".toList).length (es1.map Prod.fst) 19)
        ("x".toList) = .ok es2 ∧
      applyAsc (applyAsc docE es1) es2 ≠ docE := by
  refine ⟨[(⟨19, 20⟩, "y".toList)],
    [(⟨19, 20⟩, "x".toList), (⟨30, 31⟩, "x".toList)],
    by decide, by decide, by decide⟩

/-- C8 (amended): for a classified occurrence with resolved boundary, if
the new name is non-empty and has no occurrence of the same kind inside
the boundary (no collision), then applying the rename plan, re-parsing the
document (modelled as carrying every node span through the plan's offset
translation), and running rename back to the old name at the image of the
cursor identifier yields a plan that restores the original document text
exactly. -/
theorem c8_round_trip_amended
    {src B : Doc} {t : TSNode} {b : Nat} {cp ip : TPath} {k : IdentKind}
    {idN bd : TSNode} {es1 : List (Span × Doc)}
    (hw : wfN t = true)
    (hroot : t.span = ⟨0, src.length⟩)
    (hB : 1 ≤ B.length)
    (hcp : namedDescPath t b = some cp)
    (hfi : find_ident_node t cp = some (ip, k))
    (hid : getPath t ip = some idN)
    (hcase : (∃ fp, (k = .Local ∨ k = .Label) ∧
        find_funcdef_from_child_node t ip = some fp ∧
        getPath t fp = some bd) ∨
      ((k = .Global ∨ k = .Aggregete) ∧ bd = t ∧ is_renamable t = none))
    (hnc : renameWalkN src B k.kind bd = some [])
    (hrun : rename src t b B = .ok es1) :
    ∃ es2,
      rename (applyAsc src es1)
        (mapSpanF (shiftF B.length (es1.map Prod.fst)) t)
        (shiftF B.length (es1.map Prod.fst) idN.span.start)
        (nodeText src idN) = .ok es2 ∧
      applyAsc (applyAsc src es1) es2 = src := by
  unfold rename at hrun
  rw [hcp] at hrun
  dsimp only at hrun
  rw [hfi] at hrun
  dsimp only at hrun
  rw [hid] at hrun
  dsimp only at hrun
  have hidk : idN.kind = "IDENT" := classified_ident_kind hw hfi hid
  obtain ⟨w0, hw0p, hw0k, hw0nc, hw0mem⟩ := classified_wrapper hw hcp hfi hid
  rcases hcase with ⟨fp, hkl, hfd, hbd⟩ | ⟨hkg, hbdt, hrt⟩
  · -- Local/Label: the boundary is the enclosing function definition
    obtain ⟨hpre, nfd, hn, hnk⟩ := find_funcdef_spec hfd
    rw [hbd] at hn
    injection hn with hn2
    rw [← hn2] at hnk
    have hfpne : fp ≠ ip := by
      intro he
      rw [he, hid] at hbd
      injection hbd with hbd2
      rw [← hbd2, hidk] at hnk
      exact absurd hnk (by decide)
    obtain ⟨r, hr⟩ := hpre
    have hrne : r ≠ [] := by
      intro he
      rw [he, List.append_nil] at hr
      exact hfpne hr
    have hdrop : ip.dropLast = fp ++ r.dropLast := by
      rw [← hr, List.dropLast_append_of_ne_nil _ hrne]
    have hw0bd : SubT w0 bd := by
      have hw0p2 := hw0p
      rw [hdrop, getPath_split, hbd] at hw0p2
      exact getPath_subT r.dropLast bd w0 hw0p2
    have hbdsub : SubT bd t := getPath_subT fp t bd hbd
    have hbdne : ∀ w2 : TSNode, w2.kind = k.kind → w2 ≠ bd := by
      intro w2 hk2 he
      rw [he, hnk] at hk2
      rcases hkl with rfl | rfl <;> exact absurd hk2 (by decide)
    rcases hkl with rfl | rfl <;>
      (dsimp only at hrun
       rw [hfd] at hrun
       dsimp only at hrun
       rw [hbd] at hrun
       dsimp only at hrun
       split at hrun
       · cases hrun
       · rename_i ids hwkk
         cases hrun
         obtain ⟨hdesc2, hfind2, hpath2, htext2, hwalk2, hfinal⟩ :=
           c8_core hw hroot rfl hB rfl hcp hfi hid hbdsub hbdne
             ⟨w0, hw0p, hw0bd, hw0k, hw0nc⟩ hwkk hnc rfl rfl
         have hE2 : (ids.map (fun idn => (idn.span, B))).map Prod.fst =
             ids.map TSNode.span := by
           rw [List.map_map]
           rfl
         rw [hE2]
         refine ⟨_, ?_, hfinal⟩
         unfold rename
         rw [hdesc2]
         dsimp only
         rw [hfind2]
         dsimp only
         rw [hpath2]
         dsimp only
         rw [find_funcdef_map, hfd]
         dsimp only
         rw [getPath_map, hbd]
         dsimp only [Option.map]
         rw [htext2, hwalk2])
  · -- Global/Aggregate: the boundary is the document root
    subst hbdt
    have hbdsub : SubT bd bd := SubT.refl bd
    have hbdne : ∀ w2 : TSNode, w2.kind = k.kind → w2 ≠ bd := by
      intro w2 hk2 he
      rw [he] at hk2
      rw [is_renamable_of_kind hk2] at hrt
      cases hrt
    have hw0bd : SubT w0 bd := getPath_subT _ _ _ hw0p
    rcases hkg with rfl | rfl <;>
      (dsimp only at hrun
       split at hrun
       · cases hrun
       · rename_i ids hwkk
         cases hrun
         obtain ⟨hdesc2, hfind2, hpath2, htext2, hwalk2, hfinal⟩ :=
           c8_core hw hroot rfl hB rfl hcp hfi hid hbdsub hbdne
             ⟨w0, hw0p, hw0bd, hw0k, hw0nc⟩ hwkk hnc rfl rfl
         have hE2 : (ids.map (fun idn => (idn.span, B))).map Prod.fst =
             ids.map TSNode.span := by
           rw [List.map_map]
           rfl
         rw [hE2]
         refine ⟨_, ?_, hfinal⟩
         unfold rename
         rw [hdesc2]
         dsimp only
         rw [hfind2]
         dsimp only
         rw [hpath2]
         dsimp only
         rw [htext2, hwalk2])

/-- C8 witness: renaming the Global `$f` of document C to `h` (no `h`
occurs in the document) and renaming back at the image of the cursor
identifier restores the document text. -/
theorem c8_round_trip_amended_witness :
    ∃ es2,
      rename (applyAsc docC [(⟨10, 11⟩, "h".toList), (⟨47, 48⟩, "h".toList)])
        (mapSpanF (shiftF ("h".toList).length
          ([((⟨10, 11⟩ : Span), "h".toList),
            ((⟨47, 48⟩ : Span), "h".toList)].map Prod.fst)) treeC)
        (shiftF ("h".toList).length
          ([((⟨10, 11⟩ : Span), "h".toList),
            ((⟨47, 48⟩ : Span), "h".toList)].map Prod.fst)
          idC1.span.start)
        (nodeText docC idC1) = .ok es2 ∧
      applyAsc (applyAsc docC [(⟨10, 11⟩, "h".toList),
        (⟨47, 48⟩, "h".toList)]) es2 = docC :=
  @c8_round_trip_amended docC ("h".toList) treeC 10 [0, 1, 1] [0, 1, 1]
    IdentKind.Global idC1 treeC
    [(⟨10, 11⟩, "h".toList), (⟨47, 48⟩, "h".toList)]
    (by decide) (by decide) (by decide) (by decide)
    (by decide) (by rfl) (Or.inr ⟨Or.inl rfl, rfl, by decide⟩) (by rfl)
    (by rfl)
